import Mathlib

/-!
Verification development for `smith_waterman.py`, a generalized Smith-Waterman
local-alignment program.  The core pipeline (`compute_alignments`: matrix fill
followed by multi-path traceback) is embedded shallowly below.

Modelling conventions:
* Numeric scores (scoring-matrix entries, gap parameters, cell values) are
  modelled as exact integers `Int`; the Python program stores them as floats,
  and every claim under study is about order and exact equality, which the
  integer model shares.
* The scoring dictionary `scoring_dict[a][b]` is modelled as a total function
  `Char → Char → Int`; every claim under study presupposes that all lookups
  performed by the fill succeed (the `UnknownSymbol` failure mode is out of
  scope of the claims).
* File reading (`read_sequence`, `read_scoring_matrix`) and the interactive
  loop are out of scope; sequences enter as `List Char` and the scoring model
  as a function, exactly the data the source extracts from the files.
* Python list indexing `xs[t]` with a possibly negative `t` (which the
  traceback can produce) is modelled by `pyGetD`: a negative index within
  range wraps around, exactly as in Python; an out-of-range access (which
  would raise `IndexError`) returns a default value.  Every theorem below
  either stays provably in range or — in the concrete bug evaluations — is
  checked on runs whose every access is in range.
* The `while now_computing > 0` traceback loop is modelled with explicit
  fuel bounding the number of rounds; the fuel chosen in
  `compute_alignments` is shown sufficient in the cases the theorems cover.
* Alignment records carry one ghost field `steps` recording the direction
  tags applied along the walk (with the consumed symbols for diagonal steps).
  It is pure instrumentation used to state path-decomposition properties and
  influences no other field.
* The display-formatting method `Alignment.finalize` (60-column blocks) is
  out of scope; finished alignments are modelled by `FinalAlignment` holding
  the data the claims are about: ordinal, score, 1-based start coordinates,
  end coordinates, and the three built strings.
-/

namespace SW

/-- The gap penalty `g` of the source:
`g(gap_opening, gap_extension, gap_length) = gap_opening + gap_extension*gap_length`. -/
def g (gap_opening gap_extension : Int) (gap_length : Nat) : Int :=
  gap_opening + gap_extension * gap_length

/-- Direction tags stored in the direction matrix: the source uses the strings
`'p'` (match/mismatch, Diagonal), `'d<len>'` (Delete), `'i<len>'` (Insert) and
`'s'` (Start). -/
inductive Dir where
  | p : Dir
  | d : Nat → Dir
  | i : Nat → Dir
  | s : Dir
deriving DecidableEq, Repr

/-- Ghost record of one traceback step: a diagonal step remembers the two
consumed symbols, a gap step its length. -/
inductive Step where
  | diag : Char → Char → Step
  | del : Nat → Step
  | ins : Nat → Step
deriving DecidableEq, Repr

/-- `numbers_matrix[a][b]` (score 0 when out of range; in-range use only). -/
def getv (M : List (List Int)) (a b : Nat) : Int :=
  (M.getD a []).getD b 0

/-- `direction_matrix[a][b]` (empty when out of range; in-range use only). -/
def getd (D : List (List (List Dir))) (a b : Nat) : List Dir :=
  (D.getD a []).getD b []

/-- `matrix[a][b] = x`: in-place update of row `a` at column `b`. -/
def set2 {α : Type} (M : List (List α)) (a b : Nat) (x : α) : List (List α) :=
  M.set a ((M.getD a []).set b x)

/-- The gap-candidate scan of the source (both the insertion scan over
`numbers_matrix[i][k] - g(gap_opening, gap_extension, j-k)` for `k in range(j)`
and the deletion scan, abstracted over the scanned values): starting from
score `0` and length `0`, replace the running best only on a strict
improvement, recording the gap length `bound - k`. -/
def gapScan (go ge : Int) (vals : Nat → Int) (bound : Nat) : Int × Nat :=
  (List.range bound).foldl
    (fun acc k =>
      if acc.1 < vals k - g go ge (bound - k) then (vals k - g go ge (bound - k), bound - k)
      else acc)
    (0, 0)

/-- `pair = numbers_matrix[i-1][j-1] + scoring_dict[query[i-1]][subject[j-1]]`. -/
def pairAt (q s : List Char) (sc : Char → Char → Int) (M : List (List Int)) (a b : Nat) : Int :=
  getv M (a-1) (b-1) + sc (q.getD (a-1) ' ') (s.getD (b-1) ' ')

/-- The deletion scan at cell `(a, b)`: over `numbers_matrix[k][b]`, `k in range(a)`. -/
def delAt (go ge : Int) (M : List (List Int)) (a b : Nat) : Int × Nat :=
  gapScan go ge (fun k => getv M k b) a

/-- The insertion scan at cell `(a, b)`: over `numbers_matrix[a][k]`, `k in range(b)`. -/
def insAt (go ge : Int) (M : List (List Int)) (a b : Nat) : Int × Nat :=
  gapScan go ge (fun k => getv M a k) b

/-- `current_value = max([0, pair, delete, insert])` (Python's left-associated max). -/
def cellValueAt (q s : List Char) (sc : Char → Char → Int) (go ge : Int)
    (M : List (List Int)) (a b : Nat) : Int :=
  max (max (max 0 (pairAt q s sc M a b)) (delAt go ge M a b).1) (insAt go ge M a b).1

/-- The direction list stored at an interior cell: `['s']` when the value is
`0`, otherwise the tags among `'p'`, `'d<len>'`, `'i<len>'` whose candidate
matches the value, in that order; truncated to its first element when
`find_all` is false. -/
def dirsAt (q s : List Char) (sc : Char → Char → Int) (go ge : Int) (findAll : Bool)
    (M : List (List Int)) (a b : Nat) : List Dir :=
  let cv := cellValueAt q s sc go ge M a b
  let base :=
    if cv = 0 then [Dir.s]
    else
      (if cv = pairAt q s sc M a b then [Dir.p] else []) ++
      (if cv = (delAt go ge M a b).1 then [Dir.d (delAt go ge M a b).2] else []) ++
      (if cv = (insAt go ge M a b).1 then [Dir.i (insAt go ge M a b).2] else [])
  if findAll then base else base.take 1

/-- The state threaded through the matrix fill: the two matrices plus the
running `max_value` and `max_positions`. -/
structure FillState where
  numbers_matrix : List (List Int)
  direction_matrix : List (List (List Dir))
  max_value : Int
  max_positions : List (Nat × Nat)
deriving Repr

/-- One iteration of the doubly nested fill loop at cell `c = (i, j)`:
compute `pair`, the two scans and `current_value`; update the global maximum
(`>` resets, `==` appends only when `find_all`); store the cell value and its
direction list. -/
def cellStep (q s : List Char) (sc : Char → Char → Int) (go ge : Int) (findAll : Bool)
    (st : FillState) (c : Nat × Nat) : FillState :=
  let cv := cellValueAt q s sc go ge st.numbers_matrix c.1 c.2
  { numbers_matrix := set2 st.numbers_matrix c.1 c.2 cv
    direction_matrix :=
      set2 st.direction_matrix c.1 c.2 (dirsAt q s sc go ge findAll st.numbers_matrix c.1 c.2)
    max_value := if st.max_value < cv then cv else st.max_value
    max_positions :=
      if st.max_value < cv then [c]
      else if cv = st.max_value ∧ findAll = true then st.max_positions ++ [c]
      else st.max_positions }

/-- The row-major list of interior cells `(i, j)`, `i in 1..n`, `j in 1..m`,
in exactly the source's iteration order. -/
def cellList (n m : Nat) : List (Nat × Nat) :=
  (List.range n).flatMap (fun a => (List.range m).map (fun b => (a+1, b+1)))

/-- The initial fill state: both matrices of size `(n+1) × (m+1)` filled with
`0` / `['s']`, `max_value = 0`, `max_positions = [[0,0]]`. -/
def initState (n m : Nat) : FillState :=
  { numbers_matrix := List.replicate (n+1) (List.replicate (m+1) 0)
    direction_matrix := List.replicate (n+1) (List.replicate (m+1) [Dir.s])
    max_value := 0
    max_positions := [(0, 0)] }

/-- The complete matrix fill of `compute_alignments` (lines 179–223 of the
source): fold the per-cell step over the interior cells in row-major order. -/
def fillMatrix (q s : List Char) (sc : Char → Char → Int) (go ge : Int)
    (findAll : Bool) : FillState :=
  (cellList q.length s.length).foldl (cellStep q s sc go ge findAll)
    (initState q.length s.length)

/-- The in-progress alignment object of the source's traceback (class
`Alignment` before it is done): the three built strings, the end position,
the score, and the current matrix position `(i, j)` (Python ints: the buggy
multi-tag carry-over can drive them negative).  `steps` is the ghost trace. -/
structure Alignment where
  q_str : List Char
  s_str : List Char
  g_str : List Char
  endPos : Nat × Nat
  score : Int
  i : Int
  j : Int
  steps : List Step
deriving DecidableEq, Repr

/-- A finished alignment: ordinal `nr`, score, 1-based start coordinates
(`set_starting_points`: `q_start = i + 1`, `s_start = j + 1`), end
coordinates (`end`), and the three built strings. -/
structure FinalAlignment where
  nr : Nat
  score : Int
  q_start : Int
  s_start : Int
  q_end : Nat
  s_end : Nat
  q_str : List Char
  s_str : List Char
  g_str : List Char
  steps : List Step
deriving DecidableEq, Repr

/-- Python list indexing `xs[t]`: a negative `t` within range wraps to
`len(xs) + t`; out of range (Python raises `IndexError`) yields the default. -/
def pyGetD {α : Type} (l : List α) (t : Int) (dflt : α) : α :=
  let u := if t < 0 then (l.length : Int) + t else t
  if u < 0 then dflt else l.getD u.toNat dflt

/-- `query.sequence_str[t]` / `subject.sequence_str[t]` with Python indexing. -/
def pyChar (l : List Char) (t : Int) : Char := pyGetD l t ' '

/-- `direction_matrix[i][j]` with Python indexing. -/
def pyDirs (D : List (List (List Dir))) (a b : Int) : List Dir :=
  pyGetD (pyGetD D a []) b []

/-- The accumulator of one traceback round: the next round's alignment list
(`new_alignments`), the finished list (`found_alignments`) and `number_count`. -/
structure RoundState where
  newAligns : List Alignment
  found : List FinalAlignment
  count : Nat
deriving Repr

/-- The state local to the tag loop over one alignment's current cell: the
mutable `i`, `j` (shared across the tags — the source does not reset them per
tag) and the `alignmentstart_found` flag. -/
structure TagState where
  i : Int
  j : Int
  startFound : Bool
  rs : RoundState

/-- One iteration of `for current_direction in current_directions` (source
lines 239–283): each branch computes `q_add`/`s_add`/`g_add`, updates the
shared `i`, `j`, and — unless a start was already found — appends the
successor `Alignment(q_add + a.q_str, …, i, j)`; the `'s'` branch finishes
the alignment (`q_start = i+1`, `s_start = j+1`, ordinal `number_count`). -/
def applyDir (q s : List Char) (sc : Char → Char → Int) (a : Alignment)
    (ts : TagState) (dir : Dir) : TagState :=
  match dir with
  | Dir.p =>
    let qc := pyChar q (ts.i - 1)
    let sc' := pyChar s (ts.j - 1)
    let gc := if qc = sc' then qc else if 0 < sc qc sc' then '+' else ' '
    let i' := ts.i - 1
    let j' := ts.j - 1
    { i := i', j := j', startFound := ts.startFound
      rs :=
        if ts.startFound then ts.rs
        else
          { ts.rs with
            newAligns := ts.rs.newAligns ++
              [{ q_str := qc :: a.q_str, s_str := sc' :: a.s_str, g_str := gc :: a.g_str
                 endPos := a.endPos, score := a.score, i := i', j := j'
                 steps := Step.diag qc sc' :: a.steps }] } }
  | Dir.d L =>
    let qAdd := (List.range L).foldl (fun acc (l : Nat) => pyChar q (ts.i - 1 - l) :: acc) []
    let i' := ts.i - L
    { i := i', j := ts.j, startFound := ts.startFound
      rs :=
        if ts.startFound then ts.rs
        else
          { ts.rs with
            newAligns := ts.rs.newAligns ++
              [{ q_str := qAdd ++ a.q_str, s_str := List.replicate L '-' ++ a.s_str
                 g_str := List.replicate L ' ' ++ a.g_str
                 endPos := a.endPos, score := a.score, i := i', j := ts.j
                 steps := Step.del L :: a.steps }] } }
  | Dir.i L =>
    let sAdd := (List.range L).foldl (fun acc (l : Nat) => pyChar s (ts.j - 1 - l) :: acc) []
    let j' := ts.j - L
    { i := ts.i, j := j', startFound := ts.startFound
      rs :=
        if ts.startFound then ts.rs
        else
          { ts.rs with
            newAligns := ts.rs.newAligns ++
              [{ q_str := List.replicate L '-' ++ a.q_str, s_str := sAdd ++ a.s_str
                 g_str := List.replicate L ' ' ++ a.g_str
                 endPos := a.endPos, score := a.score, i := ts.i, j := j'
                 steps := Step.ins L :: a.steps }] } }
  | Dir.s =>
    { i := ts.i, j := ts.j, startFound := true
      rs :=
        { ts.rs with
          found := ts.rs.found ++
            [{ nr := ts.rs.count, score := a.score
               q_start := ts.i + 1, s_start := ts.j + 1
               q_end := a.endPos.1, s_end := a.endPos.2
               q_str := a.q_str, s_str := a.s_str, g_str := a.g_str, steps := a.steps }]
          count := ts.rs.count + 1 } }

/-- Process one pending alignment: read the direction tags at its current
cell and fold the tag loop over them. -/
def processOne (q s : List Char) (sc : Char → Char → Int)
    (D : List (List (List Dir))) (rs : RoundState) (a : Alignment) : RoundState :=
  ((pyDirs D a.i a.j).foldl (applyDir q s sc a)
    { i := a.i, j := a.j, startFound := false, rs := rs }).rs

/-- One round of the `while now_computing > 0` loop: process every pending
alignment, accumulating the next round's list.

Equivalence with the source's loop body (lines 231–286): every alignment
entering a round is a freshly constructed object with `done == False`, so the
`if not a.done:` guard is always taken; the rebinding
`alignments = copy.deepcopy(new_alignments)` sits inside the `for a in
alignments:` body, but Python's `for` keeps iterating the original list
object, so only the rebinding performed for the *last* element survives the
round — exactly the per-round worklist swap modelled here (`deepcopy` is
irrelevant in a pure model); and the `now_computing` counter, finally
overwritten by `len(alignments)` in that same last iteration, is exactly the
length of the next round's worklist, so `while now_computing > 0` is the
emptiness test on the worklist. -/
def runRound (q s : List Char) (sc : Char → Char → Int)
    (D : List (List (List Dir))) (rs : RoundState) (aligns : List Alignment) : RoundState :=
  aligns.foldl (processOne q s sc D) rs

/-- The round-by-round traceback loop, with explicit fuel bounding the number
of rounds (the source loops `while now_computing > 0` where `now_computing`
is the length of the current alignment list). -/
def tracebackLoop (q s : List Char) (sc : Char → Char → Int)
    (D : List (List (List Dir))) :
    Nat → List FinalAlignment → Nat → List Alignment → List FinalAlignment
  | 0, found, _, _ => found
  | fuel+1, found, count, aligns =>
    if aligns = [] then found
    else
      let rs := runRound q s sc D { newAligns := [], found := found, count := count } aligns
      tracebackLoop q s sc D fuel rs.found rs.count rs.newAligns

/-- The core of `compute_alignments` (source lines 179–287), with the
sequences and scoring model passed directly (file parsing is out of scope):
fill the matrices, seed one pending alignment per stored max position
(`Alignment('', '', '', max_position, max_value, …)`), and run the traceback
rounds starting from `number_count = 1`. -/
def compute_alignments (q s : List Char) (sc : Char → Char → Int) (go ge : Int)
    (findAll : Bool) : List FinalAlignment :=
  let st := fillMatrix q s sc go ge findAll
  let init := st.max_positions.map (fun c =>
    { q_str := [], s_str := [], g_str := [], endPos := c, score := st.max_value
      i := (c.1 : Int), j := (c.2 : Int), steps := ([] : List Step) })
  tracebackLoop q s sc st.direction_matrix (2 * (q.length + s.length) + 4) [] 1 init

/-- Removing the gap markers `'-'` from a built string (used to state the
substring-fidelity claim). -/
def stripGaps (l : List Char) : List Char := l.filter (fun c => c != '-')

/-- The contiguous 0-based slice `l[a:b]` (used to state substring fidelity). -/
def slice (l : List Char) (a b : Nat) : List Char := (l.drop a).take (b - a)

/-- The score decomposition of a traceback path: the sum of the pairwise
scores of its diagonal steps minus the gap penalty of each of its gap runs. -/
def pathScore (sc : Char → Char → Int) (go ge : Int) : List Step → Int
  | [] => 0
  | Step.diag a b :: rest => sc a b + pathScore sc go ge rest
  | Step.del L :: rest => -g go ge L + pathScore sc go ge rest
  | Step.ins L :: rest => -g go ge L + pathScore sc go ge rest

/-! Concrete inputs used by the witnesses, counterexamples and bug
evaluations. -/

/-- Query `"AA"`. -/
def qAA : List Char := ['A', 'A']

/-- Sequence `"A"`. -/
def sA : List Char := ['A']

/-- Scoring: `A–A = 2`, every other pair `-1`. -/
def scAA : Char → Char → Int := fun a b => if a = 'A' ∧ b = 'A' then 2 else -1

/-- The all-zero scoring model (no symbol pair scores positively). -/
def scZero : Char → Char → Int := fun _ _ => 0

/-- Query `"AB"`. -/
def qAB : List Char := ['A', 'B']

/-- Sequence `"C"`. -/
def sC : List Char := ['C']

/-- Scoring: `A–C = -5`, `B–C = 1`, every other pair `0`. -/
def scABC : Char → Char → Int := fun a b =>
  if a = 'A' ∧ b = 'C' then -5 else if a = 'B' ∧ b = 'C' then 1 else 0

/-- Sequence `"B"`. -/
def sB : List Char := ['B']

/-- Scoring: `A–B = 2` and `B–B = 2`, every other pair `-1`. -/
def scAB : Char → Char → Int := fun a b =>
  if (a = 'A' ∧ b = 'B') ∨ (a = 'B' ∧ b = 'B') then 2 else -1

/-- Scanned values with a tie between two positive gap candidates
(`vals 0 - g 1 1 2 = 5 = vals 1 - g 1 1 1`). -/
def vals6 : Nat → Int := fun k => if k = 0 then 8 else 7

/-- Proof device: the prefix of the gap scan that has processed
`k = 0, …, t-1` (so `gapScan go ge vals bound = gapScanAux go ge vals bound bound`). -/
def gapScanAux (go ge : Int) (vals : Nat → Int) (bound t : Nat) : Int × Nat :=
  (List.range t).foldl
    (fun acc k =>
      if acc.1 < vals k - g go ge (bound - k) then (vals k - g go ge (bound - k), bound - k)
      else acc)
    (0, 0)

/-- Strict row-major order on cells: `(a, b)` is scanned before `(a', b')`. -/
def rmLT (c d : Nat × Nat) : Prop := c.1 < d.1 ∨ (c.1 = d.1 ∧ c.2 < d.2)

/-- The invariant carried through the matrix fill.  `done` are the already
processed interior cells (in row-major order), `rest` the cells still to be
processed; `done ++ rest` is always the full `cellList`.  Processed cells
hold exactly the value and direction list that the source's formulas compute
— stated over the *current* matrix, which no later write disturbs; row 0 and
column 0 still hold their initial `(0, ['s'])`; the running maximum and its
position list are characterized exactly. -/
structure FillInv (q s : List Char) (sc : Char → Char → Int) (go ge : Int) (fa : Bool)
    (st : FillState) (done rest : List (Nat × Nat)) : Prop where
  hnl : st.numbers_matrix.length = q.length + 1
  hnr : ∀ a, a ≤ q.length → (st.numbers_matrix.getD a []).length = s.length + 1
  hdl : st.direction_matrix.length = q.length + 1
  hdr : ∀ a, a ≤ q.length → (st.direction_matrix.getD a []).length = s.length + 1
  border_v0 : ∀ b, b ≤ s.length → getv st.numbers_matrix 0 b = 0
  border_vc : ∀ a, a ≤ q.length → getv st.numbers_matrix a 0 = 0
  border_d0 : ∀ b, b ≤ s.length → getd st.direction_matrix 0 b = [Dir.s]
  border_dc : ∀ a, a ≤ q.length → getd st.direction_matrix a 0 = [Dir.s]
  done_v : ∀ c ∈ done,
    getv st.numbers_matrix c.1 c.2 = cellValueAt q s sc go ge st.numbers_matrix c.1 c.2
  done_d : ∀ c ∈ done,
    getd st.direction_matrix c.1 c.2 = dirsAt q s sc go ge fa st.numbers_matrix c.1 c.2
  rest_v : ∀ c ∈ rest, getv st.numbers_matrix c.1 c.2 = 0
  rest_d : ∀ c ∈ rest, getd st.direction_matrix c.1 c.2 = [Dir.s]
  done_le : ∀ c ∈ done, getv st.numbers_matrix c.1 c.2 ≤ st.max_value
  mv_nonneg : 0 ≤ st.max_value
  max_zero : st.max_value = 0 → st.max_positions = (0, 0) :: (if fa then done else [])
  max_pos : 0 < st.max_value → ∃ p d₁ d₂, done = d₁ ++ p :: d₂ ∧
    getv st.numbers_matrix p.1 p.2 = st.max_value ∧
    (∀ c ∈ d₁, getv st.numbers_matrix c.1 c.2 < st.max_value) ∧
    st.max_positions = p ::
      (if fa then
        d₂.filter (fun c => decide (getv st.numbers_matrix c.1 c.2 = st.max_value))
      else [])

/-- The ordinal bookkeeping invariant of the traceback: `number_count` is one
more than the number of finished alignments, and the `t`-th finished
alignment carries ordinal `t + 1`. -/
def OrdInv (found : List FinalAlignment) (count : Nat) : Prop :=
  count = found.length + 1 ∧ ∀ (t : Nat) (x : FinalAlignment), found[t]? = some x → x.nr = t + 1

/-! Basic list-access lemmas. -/

theorem getD_set_self {α : Type} (l : List α) (a : Nat) (x d : α) (h : a < l.length) :
    (l.set a x).getD a d = x := by
  simp [List.getD_eq_getElem?_getD, List.getElem?_set_self h]

theorem getD_set_ne {α : Type} (l : List α) (a b : Nat) (x d : α) (h : a ≠ b) :
    (l.set a x).getD b d = l.getD b d := by
  simp [List.getD_eq_getElem?_getD, List.getElem?_set_ne h]

theorem getD_replicate {α : Type} (n k : Nat) (x d : α) (h : k < n) :
    (List.replicate n x).getD k d = x := by
  simp [List.getD_eq_getElem?_getD, List.getElem?_replicate, h]

theorem getD2_set2_self {α : Type} (M : List (List α)) (a b : Nat) (x d : α)
    (ha : a < M.length) (hb : b < (M.getD a []).length) :
    ((set2 M a b x).getD a []).getD b d = x := by
  unfold set2
  rw [getD_set_self _ _ _ _ ha, getD_set_self _ _ _ _ hb]

theorem getD2_set2_ne {α : Type} (M : List (List α)) (a b a' b' : Nat) (x d : α)
    (h : (a, b) ≠ (a', b')) :
    ((set2 M a b x).getD a' []).getD b' d = (M.getD a' []).getD b' d := by
  unfold set2
  by_cases hac : a = a'
  · subst hac
    have hbc : b ≠ b' := by
      intro hb; exact h (by rw [hb])
    by_cases hlen : a < M.length
    · rw [getD_set_self _ _ _ _ hlen, getD_set_ne _ _ _ _ _ hbc]
    · have h1 : (M.set a ((M.getD a []).set b x)).getD a [] = [] := by
        rw [List.getD_eq_getElem?_getD, List.getElem?_eq_none (by simpa using hlen)]
        rfl
      have h2 : M.getD a [] = [] := by
        rw [List.getD_eq_getElem?_getD, List.getElem?_eq_none (by simpa using hlen)]
        rfl
      rw [h1, h2]
  · rw [getD_set_ne _ _ _ _ _ hac]

theorem length_set2 {α : Type} (M : List (List α)) (a b : Nat) (x : α) :
    (set2 M a b x).length = M.length := by
  simp [set2]

theorem getD_set2_row_length {α : Type} (M : List (List α)) (a b a' : Nat) (x : α) :
    ((set2 M a b x).getD a' []).length = (M.getD a' []).length := by
  unfold set2
  by_cases hac : a = a'
  · subst hac
    by_cases hlen : a < M.length
    · rw [getD_set_self _ _ _ _ hlen]; simp
    · have h1 : (M.set a ((M.getD a []).set b x)).getD a [] = [] := by
        rw [List.getD_eq_getElem?_getD, List.getElem?_eq_none (by simpa using hlen)]
        rfl
      have h2 : M.getD a [] = [] := by
        rw [List.getD_eq_getElem?_getD, List.getElem?_eq_none (by simpa using hlen)]
        rfl
      rw [h1, h2]
  · rw [getD_set_ne _ _ _ _ _ hac]

theorem getv_set2_self (M : List (List Int)) (a b : Nat) (x : Int)
    (ha : a < M.length) (hb : b < (M.getD a []).length) :
    getv (set2 M a b x) a b = x := getD2_set2_self M a b x 0 ha hb

theorem getv_set2_ne (M : List (List Int)) (a b a' b' : Nat) (x : Int)
    (h : (a, b) ≠ (a', b')) :
    getv (set2 M a b x) a' b' = getv M a' b' := getD2_set2_ne M a b a' b' x 0 h

theorem getd_set2_self (D : List (List (List Dir))) (a b : Nat) (x : List Dir)
    (ha : a < D.length) (hb : b < (D.getD a []).length) :
    getd (set2 D a b x) a b = x := getD2_set2_self D a b x [] ha hb

theorem getd_set2_ne (D : List (List (List Dir))) (a b a' b' : Nat) (x : List Dir)
    (h : (a, b) ≠ (a', b')) :
    getd (set2 D a b x) a' b' = getd D a' b' := getD2_set2_ne D a b a' b' x [] h

/-! Characterization of the gap scan. -/

theorem gapScanAux_succ (go ge : Int) (vals : Nat → Int) (bound t : Nat) :
    gapScanAux go ge vals bound (t+1) =
      (if (gapScanAux go ge vals bound t).1 < vals t - g go ge (bound - t) then
        (vals t - g go ge (bound - t), bound - t)
      else gapScanAux go ge vals bound t) := by
  unfold gapScanAux
  rw [List.range_succ, List.foldl_append]
  rfl

theorem gapScanAux_spec (go ge : Int) (vals : Nat → Int) (bound : Nat) : ∀ t,
    0 ≤ (gapScanAux go ge vals bound t).1 ∧
    (∀ k, k < t → vals k - g go ge (bound - k) ≤ (gapScanAux go ge vals bound t).1) ∧
    ((gapScanAux go ge vals bound t).1 = 0 → gapScanAux go ge vals bound t = (0, 0)) ∧
    (0 < (gapScanAux go ge vals bound t).1 →
      ∃ k, k < t ∧ (gapScanAux go ge vals bound t).1 = vals k - g go ge (bound - k) ∧
        (gapScanAux go ge vals bound t).2 = bound - k ∧
        ∀ k', k' < k → vals k' - g go ge (bound - k') < (gapScanAux go ge vals bound t).1) := by
  intro t
  induction t with
  | zero =>
    refine ⟨le_refl 0, ?_, fun _ => rfl, ?_⟩
    · intro k hk; omega
    · intro h; exact absurd h (by norm_num [gapScanAux])
  | succ t ih =>
    obtain ⟨ihA, ihB, ihC, ihD⟩ := ih
    rw [gapScanAux_succ]
    by_cases hc : (gapScanAux go ge vals bound t).1 < vals t - g go ge (bound - t)
    · simp only [if_pos hc]
      have hpos : 0 < vals t - g go ge (bound - t) := lt_of_le_of_lt ihA hc
      refine ⟨le_of_lt hpos, ?_, ?_, ?_⟩
      · intro k hk
        rcases Nat.lt_succ_iff_lt_or_eq.mp hk with hk' | hk'
        · exact le_of_lt (lt_of_le_of_lt (ihB k hk') hc)
        · subst hk'; exact le_refl _
      · intro h; exact absurd h (by omega)
      · intro _
        exact ⟨t, Nat.lt_succ_self t, rfl, rfl,
          fun k' hk' => lt_of_le_of_lt (ihB k' hk') hc⟩
    · simp only [if_neg hc]
      refine ⟨ihA, ?_, ihC, ?_⟩
      · intro k hk
        rcases Nat.lt_succ_iff_lt_or_eq.mp hk with hk' | hk'
        · exact ihB k hk'
        · subst hk'; omega
      · intro hpos
        obtain ⟨k, hk, h1, h2, h3⟩ := ihD hpos
        exact ⟨k, Nat.lt_succ_of_lt hk, h1, h2, h3⟩

theorem gapScan_eq_aux (go ge : Int) (vals : Nat → Int) (bound : Nat) :
    gapScan go ge vals bound = gapScanAux go ge vals bound bound := rfl

theorem gapScan_spec (go ge : Int) (vals : Nat → Int) (bound : Nat) :
    0 ≤ (gapScan go ge vals bound).1 ∧
    (∀ k, k < bound → vals k - g go ge (bound - k) ≤ (gapScan go ge vals bound).1) ∧
    ((gapScan go ge vals bound).1 = 0 → gapScan go ge vals bound = (0, 0)) ∧
    (0 < (gapScan go ge vals bound).1 →
      ∃ k, k < bound ∧ (gapScan go ge vals bound).1 = vals k - g go ge (bound - k) ∧
        (gapScan go ge vals bound).2 = bound - k ∧
        ∀ k', k' < k → vals k' - g go ge (bound - k') < (gapScan go ge vals bound).1) := by
  rw [gapScan_eq_aux]
  exact gapScanAux_spec go ge vals bound bound

/-- A scan congruence: the scan only reads `vals k` for `k < bound`. -/
theorem gapScan_congr (go ge : Int) (vals vals' : Nat → Int) (bound : Nat)
    (h : ∀ k, k < bound → vals k = vals' k) :
    gapScan go ge vals bound = gapScan go ge vals' bound := by
  have haux : ∀ t, t ≤ bound →
      gapScanAux go ge vals bound t = gapScanAux go ge vals' bound t := by
    intro t
    induction t with
    | zero => intro _; rfl
    | succ t ih =>
      intro ht
      rw [gapScanAux_succ, gapScanAux_succ, ih (by omega), h t (by omega)]
  rw [gapScan_eq_aux, gapScan_eq_aux]
  exact haux bound (le_refl bound)

/-! The row-major order on cells and the structure of `cellList`. -/

theorem rmLT_irrefl (c : Nat × Nat) : ¬ rmLT c c := by
  unfold rmLT; omega

theorem rmLT_asymm (c d : Nat × Nat) : rmLT c d → ¬ rmLT d c := by
  unfold rmLT; omega

theorem mem_cellList (n m : Nat) (c : Nat × Nat) :
    c ∈ cellList n m ↔ 1 ≤ c.1 ∧ c.1 ≤ n ∧ 1 ≤ c.2 ∧ c.2 ≤ m := by
  obtain ⟨a, b⟩ := c
  simp only [cellList, List.mem_flatMap, List.mem_map, List.mem_range, Prod.mk.injEq]
  constructor
  · rintro ⟨a', ha', b', hb', h1, h2⟩; omega
  · rintro ⟨h1, h2, h3, h4⟩
    exact ⟨a - 1, by omega, b - 1, by omega, by omega, by omega⟩

theorem cellList_succ (n m : Nat) :
    cellList (n+1) m = cellList n m ++ (List.range m).map (fun b => (n+1, b+1)) := by
  unfold cellList
  rw [List.range_succ, List.flatMap_append]
  simp

theorem length_cellList (n m : Nat) : (cellList n m).length = n * m := by
  induction n with
  | zero => simp [cellList]
  | succ n ih =>
    rw [cellList_succ, List.length_append, ih, List.length_map, List.length_range]
    ring

theorem pairwise_row (n m : Nat) :
    List.Pairwise rmLT ((List.range m).map (fun b => (n+1, b+1))) := by
  refine List.Pairwise.map _ ?_ (List.pairwise_lt_range m)
  intro a b hab
  exact Or.inr ⟨rfl, by omega⟩

theorem cellList_pairwise (n m : Nat) : List.Pairwise rmLT (cellList n m) := by
  induction n with
  | zero => exact List.Pairwise.nil
  | succ n ih =>
    rw [cellList_succ]
    refine (List.pairwise_append).mpr ⟨ih, pairwise_row n m, ?_⟩
    intro c hc d hd
    rw [mem_cellList] at hc
    simp only [List.mem_map, List.mem_range] at hd
    obtain ⟨b, _, rfl⟩ := hd
    exact Or.inl (by omega)

/-! Stability of the per-cell formulas under a later write: the fill writes
cell `c` only after every cell that the formulas at `(a, b)` read (the
diagonal neighbour and the earlier cells of row `a` / column `b`) whenever
`(a, b)` is at or before `c` in row-major order. -/

theorem cellValueAt_nonneg (q s : List Char) (sc : Char → Char → Int) (go ge : Int)
    (M : List (List Int)) (a b : Nat) : 0 ≤ cellValueAt q s sc go ge M a b :=
  le_trans (le_trans (le_max_left 0 (pairAt q s sc M a b)) (le_max_left _ _)) (le_max_left _ _)

theorem pairAt_set2_stable (q s : List Char) (sc : Char → Char → Int)
    (M : List (List Int)) (x : Int) (ci cj a b : Nat) (hci : 1 ≤ ci)
    (h : a < ci ∨ (a = ci ∧ b ≤ cj)) :
    pairAt q s sc (set2 M ci cj x) a b = pairAt q s sc M a b := by
  unfold pairAt
  rw [getv_set2_ne]
  simp only [ne_eq, Prod.mk.injEq, not_and]
  intro h1
  omega

theorem delAt_set2_stable (go ge : Int) (M : List (List Int)) (x : Int) (ci cj a b : Nat)
    (h : a < ci ∨ (a = ci ∧ b ≤ cj)) :
    delAt go ge (set2 M ci cj x) a b = delAt go ge M a b := by
  unfold delAt
  refine gapScan_congr go ge _ _ a (fun k hk => ?_)
  refine getv_set2_ne M ci cj k b x ?_
  simp only [ne_eq, Prod.mk.injEq, not_and]
  intro h1
  omega

theorem insAt_set2_stable (go ge : Int) (M : List (List Int)) (x : Int) (ci cj a b : Nat)
    (h : a < ci ∨ (a = ci ∧ b ≤ cj)) :
    insAt go ge (set2 M ci cj x) a b = insAt go ge M a b := by
  unfold insAt
  refine gapScan_congr go ge _ _ b (fun k hk => ?_)
  refine getv_set2_ne M ci cj a k x ?_
  simp only [ne_eq, Prod.mk.injEq, not_and]
  intro h1
  omega

theorem cellValueAt_set2_stable (q s : List Char) (sc : Char → Char → Int) (go ge : Int)
    (M : List (List Int)) (x : Int) (ci cj a b : Nat) (hci : 1 ≤ ci)
    (h : a < ci ∨ (a = ci ∧ b ≤ cj)) :
    cellValueAt q s sc go ge (set2 M ci cj x) a b = cellValueAt q s sc go ge M a b := by
  unfold cellValueAt
  rw [pairAt_set2_stable q s sc M x ci cj a b hci h, delAt_set2_stable go ge M x ci cj a b h,
    insAt_set2_stable go ge M x ci cj a b h]

theorem dirsAt_set2_stable (q s : List Char) (sc : Char → Char → Int) (go ge : Int)
    (fa : Bool) (M : List (List Int)) (x : Int) (ci cj a b : Nat) (hci : 1 ≤ ci)
    (h : a < ci ∨ (a = ci ∧ b ≤ cj)) :
    dirsAt q s sc go ge fa (set2 M ci cj x) a b = dirsAt q s sc go ge fa M a b := by
  unfold dirsAt
  rw [pairAt_set2_stable q s sc M x ci cj a b hci h, delAt_set2_stable go ge M x ci cj a b h,
    insAt_set2_stable go ge M x ci cj a b h,
    cellValueAt_set2_stable q s sc go ge M x ci cj a b hci h]

theorem ne_pair_of_rmLT (x y : Nat × Nat) (h : rmLT x y) : (y.1, y.2) ≠ (x.1, x.2) := by
  unfold rmLT at h
  simp only [ne_eq, Prod.mk.injEq, not_and]
  omega

theorem cellStep_numbers (q s : List Char) (sc : Char → Char → Int) (go ge : Int) (fa : Bool)
    (st : FillState) (c : Nat × Nat) :
    (cellStep q s sc go ge fa st c).numbers_matrix =
      set2 st.numbers_matrix c.1 c.2 (cellValueAt q s sc go ge st.numbers_matrix c.1 c.2) := rfl

theorem cellStep_dirs (q s : List Char) (sc : Char → Char → Int) (go ge : Int) (fa : Bool)
    (st : FillState) (c : Nat × Nat) :
    (cellStep q s sc go ge fa st c).direction_matrix =
      set2 st.direction_matrix c.1 c.2 (dirsAt q s sc go ge fa st.numbers_matrix c.1 c.2) := rfl

theorem cellStep_mv (q s : List Char) (sc : Char → Char → Int) (go ge : Int) (fa : Bool)
    (st : FillState) (c : Nat × Nat) :
    (cellStep q s sc go ge fa st c).max_value =
      (if st.max_value < cellValueAt q s sc go ge st.numbers_matrix c.1 c.2 then
        cellValueAt q s sc go ge st.numbers_matrix c.1 c.2
      else st.max_value) := rfl

theorem cellStep_mp (q s : List Char) (sc : Char → Char → Int) (go ge : Int) (fa : Bool)
    (st : FillState) (c : Nat × Nat) :
    (cellStep q s sc go ge fa st c).max_positions =
      (if st.max_value < cellValueAt q s sc go ge st.numbers_matrix c.1 c.2 then [c]
      else if cellValueAt q s sc go ge st.numbers_matrix c.1 c.2 = st.max_value ∧ fa = true then
        st.max_positions ++ [c]
      else st.max_positions) := rfl

theorem fillInv_init (q s : List Char) (sc : Char → Char → Int) (go ge : Int) (fa : Bool) :
    FillInv q s sc go ge fa (initState q.length s.length) [] (cellList q.length s.length) := by
  have hrow : ∀ a, a ≤ q.length →
      (initState q.length s.length).numbers_matrix.getD a [] =
        List.replicate (s.length + 1) 0 := by
    intro a ha
    exact getD_replicate _ _ _ _ (by omega)
  have hdrow : ∀ a, a ≤ q.length →
      (initState q.length s.length).direction_matrix.getD a [] =
        List.replicate (s.length + 1) [Dir.s] := by
    intro a ha
    exact getD_replicate _ _ _ _ (by omega)
  have hv : ∀ a b, a ≤ q.length → b ≤ s.length →
      getv (initState q.length s.length).numbers_matrix a b = 0 := by
    intro a b ha hb
    unfold getv
    rw [hrow a ha]
    exact getD_replicate _ _ _ _ (by omega)
  have hd : ∀ a b, a ≤ q.length → b ≤ s.length →
      getd (initState q.length s.length).direction_matrix a b = [Dir.s] := by
    intro a b ha hb
    unfold getd
    rw [hdrow a ha]
    exact getD_replicate _ _ _ _ (by omega)
  refine ⟨by simp [initState], ?_, by simp [initState], ?_, fun b hb => hv 0 b (by omega) hb,
    fun a ha => hv a 0 ha (by omega), fun b hb => hd 0 b (by omega) hb,
    fun a ha => hd a 0 ha (by omega), by simp, by simp, ?_, ?_, by simp, le_refl 0, ?_, ?_⟩
  · intro a ha; rw [hrow a ha]; simp
  · intro a ha; rw [hdrow a ha]; simp
  · intro c hc
    obtain ⟨h1, h2, h3, h4⟩ := (mem_cellList _ _ c).mp hc
    exact hv c.1 c.2 h2 h4
  · intro c hc
    obtain ⟨h1, h2, h3, h4⟩ := (mem_cellList _ _ c).mp hc
    exact hd c.1 c.2 h2 h4
  · intro _
    cases fa <;> rfl
  · intro h
    exact absurd h (by norm_num [initState])

theorem fillInv_step (q s : List Char) (sc : Char → Char → Int) (go ge : Int) (fa : Bool)
    (st : FillState) (done rest : List (Nat × Nat)) (c : Nat × Nat)
    (hsplit : done ++ c :: rest = cellList q.length s.length)
    (inv : FillInv q s sc go ge fa st done (c :: rest)) :
    FillInv q s sc go ge fa (cellStep q s sc go ge fa st c) (done ++ [c]) rest := by
  have hcmem : c ∈ cellList q.length s.length := by
    rw [← hsplit]; exact List.mem_append_right _ (List.mem_cons_self _ _)
  obtain ⟨hc1, hc2, hc3, hc4⟩ := (mem_cellList _ _ c).mp hcmem
  have hpw : List.Pairwise rmLT (done ++ c :: rest) := by
    rw [hsplit]; exact cellList_pairwise _ _
  have hdc : ∀ d ∈ done, rmLT d c :=
    fun d hd => (List.pairwise_append.mp hpw).2.2 d hd c (List.mem_cons_self _ _)
  have hcr : ∀ r ∈ rest, rmLT c r :=
    (List.pairwise_cons.mp (List.pairwise_append.mp hpw).2.1).1
  have hib : c.1 < st.numbers_matrix.length := by rw [inv.hnl]; omega
  have hjb : c.2 < (st.numbers_matrix.getD c.1 []).length := by rw [inv.hnr c.1 hc2]; omega
  have hib' : c.1 < st.direction_matrix.length := by rw [inv.hdl]; omega
  have hjb' : c.2 < (st.direction_matrix.getD c.1 []).length := by rw [inv.hdr c.1 hc2]; omega
  -- stability of formulas at processed cells and at `c` itself
  have hstabv : ∀ x : Nat × Nat, (x.1 < c.1 ∨ (x.1 = c.1 ∧ x.2 ≤ c.2)) → ∀ v : Int,
      cellValueAt q s sc go ge (set2 st.numbers_matrix c.1 c.2 v) x.1 x.2 =
        cellValueAt q s sc go ge st.numbers_matrix x.1 x.2 :=
    fun x hx v => cellValueAt_set2_stable q s sc go ge st.numbers_matrix v c.1 c.2 x.1 x.2 hc1 hx
  have hstabd : ∀ x : Nat × Nat, (x.1 < c.1 ∨ (x.1 = c.1 ∧ x.2 ≤ c.2)) → ∀ v : Int,
      dirsAt q s sc go ge fa (set2 st.numbers_matrix c.1 c.2 v) x.1 x.2 =
        dirsAt q s sc go ge fa st.numbers_matrix x.1 x.2 :=
    fun x hx v => dirsAt_set2_stable q s sc go ge fa st.numbers_matrix v c.1 c.2 x.1 x.2 hc1 hx
  have hrm_of_done : ∀ x : Nat × Nat, rmLT x c → x.1 < c.1 ∨ (x.1 = c.1 ∧ x.2 ≤ c.2) := by
    intro x hx; unfold rmLT at hx; omega
  have hvkeep : ∀ x : Nat × Nat, x ∈ done → ∀ v : Int,
      getv (set2 st.numbers_matrix c.1 c.2 v) x.1 x.2 = getv st.numbers_matrix x.1 x.2 :=
    fun x hx v => getv_set2_ne _ _ _ _ _ _ (ne_pair_of_rmLT x c (hdc x hx))
  have hdkeep : ∀ x : Nat × Nat, x ∈ done → ∀ v : List Dir,
      getd (set2 st.direction_matrix c.1 c.2 v) x.1 x.2 = getd st.direction_matrix x.1 x.2 :=
    fun x hx v => getd_set2_ne _ _ _ _ _ _ (ne_pair_of_rmLT x c (hdc x hx))
  refine ⟨?_, ?_, ?_, ?_, ?_, ?_, ?_, ?_, ?_, ?_, ?_, ?_, ?_, ?_, ?_, ?_⟩
  · rw [cellStep_numbers, length_set2]; exact inv.hnl
  · intro a ha; rw [cellStep_numbers, getD_set2_row_length]; exact inv.hnr a ha
  · rw [cellStep_dirs, length_set2]; exact inv.hdl
  · intro a ha; rw [cellStep_dirs, getD_set2_row_length]; exact inv.hdr a ha
  · intro b hb
    rw [cellStep_numbers, getv_set2_ne _ _ _ _ _ _ (by simp only [ne_eq, Prod.mk.injEq, not_and]; omega)]
    exact inv.border_v0 b hb
  · intro a ha
    rw [cellStep_numbers, getv_set2_ne _ _ _ _ _ _ (by simp only [ne_eq, Prod.mk.injEq, not_and]; omega)]
    exact inv.border_vc a ha
  · intro b hb
    rw [cellStep_dirs,
      getd_set2_ne _ _ _ _ _ _ (by simp only [ne_eq, Prod.mk.injEq, not_and]; omega)]
    exact inv.border_d0 b hb
  · intro a ha
    rw [cellStep_dirs,
      getd_set2_ne _ _ _ _ _ _ (by simp only [ne_eq, Prod.mk.injEq, not_and]; omega)]
    exact inv.border_dc a ha
  · -- done_v
    intro x hx
    rw [cellStep_numbers]
    rcases List.mem_append.mp hx with hin | hin
    · rw [hvkeep x hin, hstabv x (hrm_of_done x (hdc x hin)) _]
      exact inv.done_v x hin
    · have hxc : x = c := by simpa using hin
      subst hxc
      rw [getv_set2_self _ _ _ _ hib hjb, hstabv x (Or.inr ⟨rfl, le_refl _⟩) _]
  · -- done_d
    intro x hx
    rw [cellStep_dirs, cellStep_numbers]
    rcases List.mem_append.mp hx with hin | hin
    · rw [hdkeep x hin, hstabd x (hrm_of_done x (hdc x hin)) _]
      exact inv.done_d x hin
    · have hxc : x = c := by simpa using hin
      subst hxc
      rw [getd_set2_self _ _ _ _ hib' hjb', hstabd x (Or.inr ⟨rfl, le_refl _⟩) _]
  · -- rest_v
    intro x hx
    rw [cellStep_numbers,
      getv_set2_ne _ _ _ _ _ _ (by
        have := hcr x hx; unfold rmLT at this
        simp only [ne_eq, Prod.mk.injEq, not_and]; omega)]
    exact inv.rest_v x (List.mem_cons_of_mem _ hx)
  · -- rest_d
    intro x hx
    rw [cellStep_dirs,
      getd_set2_ne _ _ _ _ _ _ (by
        have := hcr x hx; unfold rmLT at this
        simp only [ne_eq, Prod.mk.injEq, not_and]; omega)]
    exact inv.rest_d x (List.mem_cons_of_mem _ hx)
  · -- done_le
    intro x hx
    rw [cellStep_numbers, cellStep_mv]
    rcases List.mem_append.mp hx with hin | hin
    · rw [hvkeep x hin]
      by_cases hlt : st.max_value < cellValueAt q s sc go ge st.numbers_matrix c.1 c.2
      · rw [if_pos hlt]; exact le_of_lt (lt_of_le_of_lt (inv.done_le x hin) hlt)
      · rw [if_neg hlt]; exact inv.done_le x hin
    · have hxc : x = c := by simpa using hin
      subst hxc
      rw [getv_set2_self _ _ _ _ hib hjb]
      by_cases hlt : st.max_value < cellValueAt q s sc go ge st.numbers_matrix x.1 x.2
      · rw [if_pos hlt]
      · rw [if_neg hlt]; omega
  · -- mv_nonneg
    rw [cellStep_mv]
    by_cases hlt : st.max_value < cellValueAt q s sc go ge st.numbers_matrix c.1 c.2
    · rw [if_pos hlt]; exact le_of_lt (lt_of_le_of_lt inv.mv_nonneg hlt)
    · rw [if_neg hlt]; exact inv.mv_nonneg
  · -- max_zero
    rw [cellStep_mv, cellStep_mp]
    by_cases hlt : st.max_value < cellValueAt q s sc go ge st.numbers_matrix c.1 c.2
    · rw [if_pos hlt, if_pos hlt]
      intro h0
      have := inv.mv_nonneg
      omega
    · rw [if_neg hlt, if_neg hlt]
      intro h0
      have hcv0 : cellValueAt q s sc go ge st.numbers_matrix c.1 c.2 = 0 := by
        have := cellValueAt_nonneg q s sc go ge st.numbers_matrix c.1 c.2
        omega
      have hmp := inv.max_zero h0
      cases fa with
      | true =>
        rw [if_pos (by exact ⟨by omega, rfl⟩)]
        rw [hmp]
        simp
      | false =>
        rw [if_neg (by simp)]
        rw [hmp]
        simp
  · -- max_pos
    rw [cellStep_mv, cellStep_mp, cellStep_numbers]
    by_cases hlt : st.max_value < cellValueAt q s sc go ge st.numbers_matrix c.1 c.2
    · rw [if_pos hlt, if_pos hlt]
      intro _
      refine ⟨c, done, [], by simp, ?_, ?_, ?_⟩
      · rw [getv_set2_self _ _ _ _ hib hjb]
      · intro x hx
        rw [hvkeep x hx]
        exact lt_of_le_of_lt (inv.done_le x hx) hlt
      · cases fa <;> simp
    · rw [if_neg hlt, if_neg hlt]
      intro hpos
      obtain ⟨p, d₁, d₂, hdone, hp, hd₁, hmp⟩ := inv.max_pos hpos
      have hpdone : p ∈ done := by
        rw [hdone]; exact List.mem_append_right _ (List.mem_cons_self _ _)
      have hd₂done : ∀ x ∈ d₂, x ∈ done := by
        intro x hx
        rw [hdone]
        exact List.mem_append_right _ (List.mem_cons_of_mem _ hx)
      refine ⟨p, d₁, d₂ ++ [c], by rw [hdone]; simp, ?_, ?_, ?_⟩
      · rw [hvkeep p hpdone]; exact hp
      · intro x hx
        have hxdone : x ∈ done := by rw [hdone]; exact List.mem_append_left _ hx
        rw [hvkeep x hxdone]
        exact hd₁ x hx
      · have hfc : ∀ x ∈ d₂,
            (fun y : Nat × Nat => decide (getv (set2 st.numbers_matrix c.1 c.2
                (cellValueAt q s sc go ge st.numbers_matrix c.1 c.2)) y.1 y.2 = st.max_value)) x =
            (fun y : Nat × Nat =>
              decide (getv st.numbers_matrix y.1 y.2 = st.max_value)) x := by
          intro x hx
          exact decide_eq_decide.mpr (by rw [hvkeep x (hd₂done x hx)])
        by_cases hcond : cellValueAt q s sc go ge st.numbers_matrix c.1 c.2 = st.max_value ∧ fa = true
        · rw [if_pos hcond]
          obtain ⟨hcveq, hfa⟩ := hcond
          subst hfa
          rw [hmp, if_pos rfl, if_pos rfl]
          rw [List.filter_append, List.filter_congr hfc]
          simp only [List.cons_append, List.append_assoc]
          congr 2
          simp [getv_set2_self _ _ _ _ hib hjb, hcveq]
        · rw [if_neg hcond]
          cases fa with
          | true =>
            have hcvne : ¬ cellValueAt q s sc go ge st.numbers_matrix c.1 c.2 = st.max_value := by
              intro hh; exact hcond ⟨hh, rfl⟩
            rw [hmp, if_pos rfl, if_pos rfl]
            rw [List.filter_append, List.filter_congr hfc]
            congr 1
            have : (List.filter (fun y : Nat × Nat =>
                decide (getv (set2 st.numbers_matrix c.1 c.2
                  (cellValueAt q s sc go ge st.numbers_matrix c.1 c.2)) y.1 y.2 = st.max_value))
                [c]) = [] := by
              simp [List.filter, getv_set2_self _ _ _ _ hib hjb, hcvne]
            rw [this, List.append_nil]
          | false =>
            rw [hmp, if_neg (by simp), if_neg (by simp)]

theorem fillInv_fold (q s : List Char) (sc : Char → Char → Int) (go ge : Int) (fa : Bool) :
    ∀ (rest done : List (Nat × Nat)) (st : FillState),
    done ++ rest = cellList q.length s.length →
    FillInv q s sc go ge fa st done rest →
    FillInv q s sc go ge fa (rest.foldl (cellStep q s sc go ge fa) st) (done ++ rest) [] := by
  intro rest
  induction rest with
  | nil =>
    intro done st h inv
    simpa using inv
  | cons c rest ih =>
    intro done st h inv
    have h' : (done ++ [c]) ++ rest = cellList q.length s.length := by
      rw [← h]; simp
    have step := fillInv_step q s sc go ge fa st done rest c h inv
    have hres := ih (done ++ [c]) (cellStep q s sc go ge fa st c) h' step
    simpa using hres

/-- The master characterization of the finished fill: the invariant holds of
`fillMatrix` with every interior cell processed. -/
theorem fill_spec (q s : List Char) (sc : Char → Char → Int) (go ge : Int) (fa : Bool) :
    FillInv q s sc go ge fa (fillMatrix q s sc go ge fa)
      (cellList q.length s.length) [] := by
  have h := fillInv_fold q s sc go ge fa (cellList q.length s.length) []
    (initState q.length s.length) (by simp) (fillInv_init q s sc go ge fa)
  simpa [fillMatrix] using h

theorem fill_interior_v (q s : List Char) (sc : Char → Char → Int) (go ge : Int) (fa : Bool)
    (a b : Nat) (h1 : 1 ≤ a) (h2 : a ≤ q.length) (h3 : 1 ≤ b) (h4 : b ≤ s.length) :
    getv (fillMatrix q s sc go ge fa).numbers_matrix a b =
      cellValueAt q s sc go ge (fillMatrix q s sc go ge fa).numbers_matrix a b :=
  (fill_spec q s sc go ge fa).done_v (a, b) ((mem_cellList _ _ _).mpr ⟨h1, h2, h3, h4⟩)

theorem fill_interior_d (q s : List Char) (sc : Char → Char → Int) (go ge : Int) (fa : Bool)
    (a b : Nat) (h1 : 1 ≤ a) (h2 : a ≤ q.length) (h3 : 1 ≤ b) (h4 : b ≤ s.length) :
    getd (fillMatrix q s sc go ge fa).direction_matrix a b =
      dirsAt q s sc go ge fa (fillMatrix q s sc go ge fa).numbers_matrix a b :=
  (fill_spec q s sc go ge fa).done_d (a, b) ((mem_cellList _ _ _).mpr ⟨h1, h2, h3, h4⟩)

/-! Analysis of the stored direction lists. -/

theorem pairAt_le_cellValueAt (q s : List Char) (sc : Char → Char → Int) (go ge : Int)
    (M : List (List Int)) (a b : Nat) :
    pairAt q s sc M a b ≤ cellValueAt q s sc go ge M a b :=
  le_trans (le_trans (le_max_right 0 _) (le_max_left _ _)) (le_max_left _ _)

theorem delAt_le_cellValueAt (q s : List Char) (sc : Char → Char → Int) (go ge : Int)
    (M : List (List Int)) (a b : Nat) :
    (delAt go ge M a b).1 ≤ cellValueAt q s sc go ge M a b :=
  le_trans (le_max_right _ _) (le_max_left _ _)

theorem insAt_le_cellValueAt (q s : List Char) (sc : Char → Char → Int) (go ge : Int)
    (M : List (List Int)) (a b : Nat) :
    (insAt go ge M a b).1 ≤ cellValueAt q s sc go ge M a b :=
  le_max_right _ _

theorem cellValueAt_cases (q s : List Char) (sc : Char → Char → Int) (go ge : Int)
    (M : List (List Int)) (a b : Nat) (h : cellValueAt q s sc go ge M a b ≠ 0) :
    cellValueAt q s sc go ge M a b = pairAt q s sc M a b ∨
    cellValueAt q s sc go ge M a b = (delAt go ge M a b).1 ∨
    cellValueAt q s sc go ge M a b = (insAt go ge M a b).1 := by
  rcases max_choice (max (max 0 (pairAt q s sc M a b)) (delAt go ge M a b).1)
    (insAt go ge M a b).1 with h1 | h1
  · rcases max_choice (max 0 (pairAt q s sc M a b)) (delAt go ge M a b).1 with h2 | h2
    · rcases max_choice 0 (pairAt q s sc M a b) with h3 | h3
      · exact absurd (by unfold cellValueAt; rw [h1, h2, h3]) h
      · exact Or.inl (by unfold cellValueAt; rw [h1, h2, h3])
    · exact Or.inr (Or.inl (by unfold cellValueAt; rw [h1, h2]))
  · exact Or.inr (Or.inr (by unfold cellValueAt; rw [h1]))

theorem mem_base_of_mem_dirsAt (q s : List Char) (sc : Char → Char → Int) (go ge : Int)
    (fa : Bool) (M : List (List Int)) (a b : Nat) (t : Dir)
    (hcv : cellValueAt q s sc go ge M a b ≠ 0)
    (h : t ∈ dirsAt q s sc go ge fa M a b) :
    t ∈ (if cellValueAt q s sc go ge M a b = pairAt q s sc M a b then [Dir.p] else []) ++
      ((if cellValueAt q s sc go ge M a b = (delAt go ge M a b).1 then
        [Dir.d (delAt go ge M a b).2] else []) ++
      (if cellValueAt q s sc go ge M a b = (insAt go ge M a b).1 then
        [Dir.i (insAt go ge M a b).2] else [])) := by
  unfold dirsAt at h
  simp only [if_neg hcv] at h
  cases fa with
  | true => simpa using h
  | false =>
    simp only [Bool.false_eq_true, if_false] at h
    have := List.take_subset 1 _ h
    simpa using this

theorem p_mem_dirsAt (q s : List Char) (sc : Char → Char → Int) (go ge : Int)
    (fa : Bool) (M : List (List Int)) (a b : Nat)
    (h : Dir.p ∈ dirsAt q s sc go ge fa M a b) :
    cellValueAt q s sc go ge M a b ≠ 0 ∧
    cellValueAt q s sc go ge M a b = pairAt q s sc M a b := by
  have hcv : cellValueAt q s sc go ge M a b ≠ 0 := by
    intro hcv
    unfold dirsAt at h
    simp only [if_pos hcv] at h
    cases fa <;> simp_all
  refine ⟨hcv, ?_⟩
  have hb := mem_base_of_mem_dirsAt q s sc go ge fa M a b Dir.p hcv h
  rcases List.mem_append.mp hb with h1 | h1
  · by_cases hp : cellValueAt q s sc go ge M a b = pairAt q s sc M a b
    · exact hp
    · rw [if_neg hp] at h1; simp at h1
  · rcases List.mem_append.mp h1 with h2 | h2 <;> (split_ifs at h2 <;> simp_all)

theorem d_mem_dirsAt (q s : List Char) (sc : Char → Char → Int) (go ge : Int)
    (fa : Bool) (M : List (List Int)) (a b : Nat) (L : Nat)
    (h : Dir.d L ∈ dirsAt q s sc go ge fa M a b) :
    cellValueAt q s sc go ge M a b ≠ 0 ∧
    cellValueAt q s sc go ge M a b = (delAt go ge M a b).1 ∧ L = (delAt go ge M a b).2 := by
  have hcv : cellValueAt q s sc go ge M a b ≠ 0 := by
    intro hcv
    unfold dirsAt at h
    simp only [if_pos hcv] at h
    cases fa <;> simp_all
  refine ⟨hcv, ?_⟩
  have hb := mem_base_of_mem_dirsAt q s sc go ge fa M a b (Dir.d L) hcv h
  rcases List.mem_append.mp hb with h1 | h1
  · split_ifs at h1 <;> simp_all
  · rcases List.mem_append.mp h1 with h2 | h2
    · by_cases hd : cellValueAt q s sc go ge M a b = (delAt go ge M a b).1
      · rw [if_pos hd] at h2
        simp at h2
        exact ⟨hd, h2⟩
      · rw [if_neg hd] at h2; simp at h2
    · split_ifs at h2 <;> simp_all

theorem i_mem_dirsAt (q s : List Char) (sc : Char → Char → Int) (go ge : Int)
    (fa : Bool) (M : List (List Int)) (a b : Nat) (L : Nat)
    (h : Dir.i L ∈ dirsAt q s sc go ge fa M a b) :
    cellValueAt q s sc go ge M a b ≠ 0 ∧
    cellValueAt q s sc go ge M a b = (insAt go ge M a b).1 ∧ L = (insAt go ge M a b).2 := by
  have hcv : cellValueAt q s sc go ge M a b ≠ 0 := by
    intro hcv
    unfold dirsAt at h
    simp only [if_pos hcv] at h
    cases fa <;> simp_all
  refine ⟨hcv, ?_⟩
  have hb := mem_base_of_mem_dirsAt q s sc go ge fa M a b (Dir.i L) hcv h
  rcases List.mem_append.mp hb with h1 | h1
  · split_ifs at h1 <;> simp_all
  · rcases List.mem_append.mp h1 with h2 | h2
    · split_ifs at h2 <;> simp_all
    · by_cases hi : cellValueAt q s sc go ge M a b = (insAt go ge M a b).1
      · rw [if_pos hi] at h2
        simp at h2
        exact ⟨hi, h2⟩
      · rw [if_neg hi] at h2; simp at h2

theorem s_mem_dirsAt (q s : List Char) (sc : Char → Char → Int) (go ge : Int)
    (fa : Bool) (M : List (List Int)) (a b : Nat)
    (h : Dir.s ∈ dirsAt q s sc go ge fa M a b) :
    cellValueAt q s sc go ge M a b = 0 := by
  by_contra hcv
  have hb := mem_base_of_mem_dirsAt q s sc go ge fa M a b Dir.s hcv h
  rcases List.mem_append.mp hb with h1 | h1
  · split_ifs at h1 <;> simp_all
  · rcases List.mem_append.mp h1 with h2 | h2 <;> (split_ifs at h2 <;> simp_all)

theorem dirsAt_of_zero (q s : List Char) (sc : Char → Char → Int) (go ge : Int)
    (fa : Bool) (M : List (List Int)) (a b : Nat)
    (hcv : cellValueAt q s sc go ge M a b = 0) :
    dirsAt q s sc go ge fa M a b = [Dir.s] := by
  unfold dirsAt
  simp only [if_pos hcv]
  cases fa <;> rfl

theorem dirsAt_ne_nil (q s : List Char) (sc : Char → Char → Int) (go ge : Int)
    (fa : Bool) (M : List (List Int)) (a b : Nat) :
    dirsAt q s sc go ge fa M a b ≠ [] := by
  by_cases hcv : cellValueAt q s sc go ge M a b = 0
  · rw [dirsAt_of_zero q s sc go ge fa M a b hcv]
    simp
  · have hbase : (if cellValueAt q s sc go ge M a b = pairAt q s sc M a b then [Dir.p] else []) ++
        ((if cellValueAt q s sc go ge M a b = (delAt go ge M a b).1 then
          [Dir.d (delAt go ge M a b).2] else []) ++
        (if cellValueAt q s sc go ge M a b = (insAt go ge M a b).1 then
          [Dir.i (insAt go ge M a b).2] else [])) ≠ [] := by
      rcases cellValueAt_cases q s sc go ge M a b hcv with h1 | h1 | h1 <;>
        (rw [h1]; simp)
    unfold dirsAt
    simp only [if_neg hcv]
    cases fa with
    | true => simpa using hbase
    | false =>
      simp only [Bool.false_eq_true, if_false]
      intro hnil
      rcases hx : ((if cellValueAt q s sc go ge M a b = pairAt q s sc M a b then [Dir.p] else []) ++
        ((if cellValueAt q s sc go ge M a b = (delAt go ge M a b).1 then
          [Dir.d (delAt go ge M a b).2] else []) ++
        (if cellValueAt q s sc go ge M a b = (insAt go ge M a b).1 then
          [Dir.i (insAt go ge M a b).2] else []))) with _ | ⟨t, rest⟩
    <;> simp_all

theorem dirsAt_length_le (q s : List Char) (sc : Char → Char → Int) (go ge : Int)
    (fa : Bool) (M : List (List Int)) (a b : Nat) :
    (dirsAt q s sc go ge fa M a b).length ≤ 3 := by
  by_cases hcv : cellValueAt q s sc go ge M a b = 0
  · rw [dirsAt_of_zero q s sc go ge fa M a b hcv]
    simp
  · have hbase :
        ((if cellValueAt q s sc go ge M a b = pairAt q s sc M a b then [Dir.p] else []) ++
          ((if cellValueAt q s sc go ge M a b = (delAt go ge M a b).1 then
            [Dir.d (delAt go ge M a b).2] else []) ++
          (if cellValueAt q s sc go ge M a b = (insAt go ge M a b).1 then
            [Dir.i (insAt go ge M a b).2] else []))).length ≤ 3 := by
      rw [List.length_append, List.length_append]
      have l1 : (if cellValueAt q s sc go ge M a b = pairAt q s sc M a b then
          [Dir.p] else []).length ≤ 1 := by split_ifs <;> simp
      have l2 : (if cellValueAt q s sc go ge M a b = (delAt go ge M a b).1 then
          [Dir.d (delAt go ge M a b).2] else []).length ≤ 1 := by split_ifs <;> simp
      have l3 : (if cellValueAt q s sc go ge M a b = (insAt go ge M a b).1 then
          [Dir.i (insAt go ge M a b).2] else []).length ≤ 1 := by split_ifs <;> simp
      omega
    unfold dirsAt
    simp only [if_neg hcv]
    cases fa with
    | true => simpa using hbase
    | false =>
      simp only [Bool.false_eq_true, if_false]
      exact le_trans (List.length_take_le 1 _) (by omega)

theorem dirsAt_singleton (q s : List Char) (sc : Char → Char → Int) (go ge : Int)
    (M : List (List Int)) (a b : Nat) :
    ∃ t, dirsAt q s sc go ge false M a b = [t] := by
  have hne := dirsAt_ne_nil q s sc go ge false M a b
  have hle : (dirsAt q s sc go ge false M a b).length ≤ 1 := by
    unfold dirsAt
    simp only [Bool.false_eq_true, if_false]
    exact List.length_take_le 1 _
  rcases hx : dirsAt q s sc go ge false M a b with _ | ⟨t, rest⟩
  · exact absurd hx hne
  · rw [hx] at hle
    simp at hle
    rw [hle]
    exact ⟨t, rfl⟩

/-! Per-tag semantics of the finished matrices: what each stored tag says
about the cell values, combining `fill_spec` with the scan characterization. -/

theorem tag_interior (q s : List Char) (sc : Char → Char → Int) (go ge : Int) (fa : Bool)
    (a b : Nat) (ha : a ≤ q.length) (hb : b ≤ s.length) (t : Dir) (ht : t ≠ Dir.s)
    (h : t ∈ getd (fillMatrix q s sc go ge fa).direction_matrix a b) :
    1 ≤ a ∧ 1 ≤ b := by
  by_contra hab
  have hsplit : a = 0 ∨ b = 0 := by omega
  rcases hsplit with h0 | h0
  · subst h0
    rw [(fill_spec q s sc go ge fa).border_d0 b hb] at h
    simp at h
    exact ht h
  · subst h0
    rw [(fill_spec q s sc go ge fa).border_dc a ha] at h
    simp at h
    exact ht h

theorem tag_p_spec (q s : List Char) (sc : Char → Char → Int) (go ge : Int) (fa : Bool)
    (a b : Nat) (ha : a ≤ q.length) (hb : b ≤ s.length)
    (h : Dir.p ∈ getd (fillMatrix q s sc go ge fa).direction_matrix a b) :
    1 ≤ a ∧ 1 ≤ b ∧ 0 < getv (fillMatrix q s sc go ge fa).numbers_matrix a b ∧
    getv (fillMatrix q s sc go ge fa).numbers_matrix a b =
      getv (fillMatrix q s sc go ge fa).numbers_matrix (a-1) (b-1) +
        sc (q.getD (a-1) ' ') (s.getD (b-1) ' ') := by
  obtain ⟨ha1, hb1⟩ := tag_interior q s sc go ge fa a b ha hb Dir.p (by simp) h
  rw [fill_interior_d q s sc go ge fa a b ha1 ha hb1 hb] at h
  obtain ⟨hne, heq⟩ := p_mem_dirsAt q s sc go ge fa _ a b h
  have hv := fill_interior_v q s sc go ge fa a b ha1 ha hb1 hb
  have hnn := cellValueAt_nonneg q s sc go ge (fillMatrix q s sc go ge fa).numbers_matrix a b
  refine ⟨ha1, hb1, by omega, ?_⟩
  rw [hv, heq]
  rfl

theorem tag_d_spec (q s : List Char) (sc : Char → Char → Int) (go ge : Int) (fa : Bool)
    (a b : Nat) (ha : a ≤ q.length) (hb : b ≤ s.length) (L : Nat)
    (h : Dir.d L ∈ getd (fillMatrix q s sc go ge fa).direction_matrix a b) :
    1 ≤ a ∧ 1 ≤ b ∧ 0 < getv (fillMatrix q s sc go ge fa).numbers_matrix a b ∧
    1 ≤ L ∧ L ≤ a ∧
    getv (fillMatrix q s sc go ge fa).numbers_matrix a b =
      getv (fillMatrix q s sc go ge fa).numbers_matrix (a-L) b - g go ge L := by
  obtain ⟨ha1, hb1⟩ := tag_interior q s sc go ge fa a b ha hb (Dir.d L) (by simp) h
  rw [fill_interior_d q s sc go ge fa a b ha1 ha hb1 hb] at h
  obtain ⟨hne, heq, hL⟩ := d_mem_dirsAt q s sc go ge fa _ a b L h
  have hv := fill_interior_v q s sc go ge fa a b ha1 ha hb1 hb
  have hnn := cellValueAt_nonneg q s sc go ge (fillMatrix q s sc go ge fa).numbers_matrix a b
  have hpos : 0 < (delAt go ge (fillMatrix q s sc go ge fa).numbers_matrix a b).1 := by
    rw [← heq]; omega
  obtain ⟨k, hk, hk1, hk2, _⟩ :=
    (gapScan_spec go ge (fun k => getv (fillMatrix q s sc go ge fa).numbers_matrix k b) a).2.2.2
      hpos
  have hLk : L = a - k := by rw [hL]; exact hk2
  have hkL : k = a - L := by omega
  refine ⟨ha1, hb1, by omega, by omega, by omega, ?_⟩
  rw [hv, heq]
  unfold delAt
  rw [hk1, ← hkL, ← hLk]

theorem tag_i_spec (q s : List Char) (sc : Char → Char → Int) (go ge : Int) (fa : Bool)
    (a b : Nat) (ha : a ≤ q.length) (hb : b ≤ s.length) (L : Nat)
    (h : Dir.i L ∈ getd (fillMatrix q s sc go ge fa).direction_matrix a b) :
    1 ≤ a ∧ 1 ≤ b ∧ 0 < getv (fillMatrix q s sc go ge fa).numbers_matrix a b ∧
    1 ≤ L ∧ L ≤ b ∧
    getv (fillMatrix q s sc go ge fa).numbers_matrix a b =
      getv (fillMatrix q s sc go ge fa).numbers_matrix a (b-L) - g go ge L := by
  obtain ⟨ha1, hb1⟩ := tag_interior q s sc go ge fa a b ha hb (Dir.i L) (by simp) h
  rw [fill_interior_d q s sc go ge fa a b ha1 ha hb1 hb] at h
  obtain ⟨hne, heq, hL⟩ := i_mem_dirsAt q s sc go ge fa _ a b L h
  have hv := fill_interior_v q s sc go ge fa a b ha1 ha hb1 hb
  have hnn := cellValueAt_nonneg q s sc go ge (fillMatrix q s sc go ge fa).numbers_matrix a b
  have hpos : 0 < (insAt go ge (fillMatrix q s sc go ge fa).numbers_matrix a b).1 := by
    rw [← heq]; omega
  obtain ⟨k, hk, hk1, hk2, _⟩ :=
    (gapScan_spec go ge (fun k => getv (fillMatrix q s sc go ge fa).numbers_matrix a k) b).2.2.2
      hpos
  have hLk : L = b - k := by rw [hL]; exact hk2
  have hkL : k = b - L := by omega
  refine ⟨ha1, hb1, by omega, by omega, by omega, ?_⟩
  rw [hv, heq]
  unfold insAt
  rw [hk1, ← hkL, ← hLk]

theorem tag_s_spec (q s : List Char) (sc : Char → Char → Int) (go ge : Int) (fa : Bool)
    (a b : Nat) (ha : a ≤ q.length) (hb : b ≤ s.length)
    (h : Dir.s ∈ getd (fillMatrix q s sc go ge fa).direction_matrix a b) :
    getv (fillMatrix q s sc go ge fa).numbers_matrix a b = 0 ∧
    getd (fillMatrix q s sc go ge fa).direction_matrix a b = [Dir.s] := by
  by_cases hab : 1 ≤ a ∧ 1 ≤ b
  · obtain ⟨ha1, hb1⟩ := hab
    rw [fill_interior_d q s sc go ge fa a b ha1 ha hb1 hb] at h ⊢
    have hcv := s_mem_dirsAt q s sc go ge fa _ a b h
    have hv := fill_interior_v q s sc go ge fa a b ha1 ha hb1 hb
    exact ⟨by rw [hv, hcv], dirsAt_of_zero q s sc go ge fa _ a b hcv⟩
  · have hsplit : a = 0 ∨ b = 0 := by omega
    rcases hsplit with h0 | h0
    · subst h0
      exact ⟨(fill_spec q s sc go ge fa).border_v0 b hb,
        (fill_spec q s sc go ge fa).border_d0 b hb⟩
    · subst h0
      exact ⟨(fill_spec q s sc go ge fa).border_vc a ha,
        (fill_spec q s sc go ge fa).border_dc a ha⟩

/-! Reduction of Python indexing at non-negative positions, and the effect of
one traceback round on a single pending alignment with a single tag. -/

theorem pyGetD_nat {α : Type} (l : List α) (u : Nat) (d : α) :
    pyGetD l (u : Int) d = l.getD u d := by
  unfold pyGetD
  have h1 : ¬ ((u : Int) < 0) := by omega
  simp only [h1, if_false, Int.toNat_natCast]

theorem pyChar_nat (l : List Char) (u : Nat) : pyChar l (u : Int) = l.getD u ' ' :=
  pyGetD_nat l u ' '

theorem pyDirs_nat (D : List (List (List Dir))) (a b : Nat) :
    pyDirs D (a : Int) (b : Int) = getd D a b := by
  unfold pyDirs getd
  rw [pyGetD_nat, pyGetD_nat]

theorem tracebackLoop_zero (q s : List Char) (sc : Char → Char → Int)
    (D : List (List (List Dir))) (F : List FinalAlignment) (C : Nat)
    (aligns : List Alignment) :
    tracebackLoop q s sc D 0 F C aligns = F := rfl

theorem tracebackLoop_succ (q s : List Char) (sc : Char → Char → Int)
    (D : List (List (List Dir))) (fuel : Nat) (F : List FinalAlignment) (C : Nat)
    (aligns : List Alignment) :
    tracebackLoop q s sc D (fuel+1) F C aligns =
      (if aligns = [] then F
      else
        tracebackLoop q s sc D fuel
          (runRound q s sc D ⟨[], F, C⟩ aligns).found
          (runRound q s sc D ⟨[], F, C⟩ aligns).count
          (runRound q s sc D ⟨[], F, C⟩ aligns).newAligns) := rfl

theorem round_tag_s (q s : List Char) (sc : Char → Char → Int)
    (D : List (List (List Dir))) (rs : RoundState) (a : Alignment)
    (hdir : pyDirs D a.i a.j = [Dir.s]) :
    runRound q s sc D rs [a] =
      ⟨rs.newAligns,
        rs.found ++ [⟨rs.count, a.score, a.i + 1, a.j + 1, a.endPos.1, a.endPos.2,
          a.q_str, a.s_str, a.g_str, a.steps⟩],
        rs.count + 1⟩ := by
  simp [runRound, processOne, hdir, applyDir]

theorem round_tag_p (q s : List Char) (sc : Char → Char → Int)
    (D : List (List (List Dir))) (rs : RoundState) (a : Alignment)
    (hdir : pyDirs D a.i a.j = [Dir.p]) :
    runRound q s sc D rs [a] =
      ⟨rs.newAligns ++
        [⟨pyChar q (a.i - 1) :: a.q_str, pyChar s (a.j - 1) :: a.s_str,
          (if pyChar q (a.i - 1) = pyChar s (a.j - 1) then pyChar q (a.i - 1)
            else if 0 < sc (pyChar q (a.i - 1)) (pyChar s (a.j - 1)) then '+' else ' ') ::
            a.g_str,
          a.endPos, a.score, a.i - 1, a.j - 1,
          Step.diag (pyChar q (a.i - 1)) (pyChar s (a.j - 1)) :: a.steps⟩],
        rs.found, rs.count⟩ := by
  simp [runRound, processOne, hdir, applyDir]

theorem round_tag_d (q s : List Char) (sc : Char → Char → Int)
    (D : List (List (List Dir))) (rs : RoundState) (a : Alignment) (L : Nat)
    (hdir : pyDirs D a.i a.j = [Dir.d L]) :
    runRound q s sc D rs [a] =
      ⟨rs.newAligns ++
        [⟨(List.range L).foldl (fun acc (l : Nat) => pyChar q (a.i - 1 - l) :: acc) [] ++ a.q_str,
          List.replicate L '-' ++ a.s_str, List.replicate L ' ' ++ a.g_str,
          a.endPos, a.score, a.i - L, a.j, Step.del L :: a.steps⟩],
        rs.found, rs.count⟩ := by
  simp [runRound, processOne, hdir, applyDir]

theorem round_tag_i (q s : List Char) (sc : Char → Char → Int)
    (D : List (List (List Dir))) (rs : RoundState) (a : Alignment) (L : Nat)
    (hdir : pyDirs D a.i a.j = [Dir.i L]) :
    runRound q s sc D rs [a] =
      ⟨rs.newAligns ++
        [⟨List.replicate L '-' ++ a.q_str,
          (List.range L).foldl (fun acc (l : Nat) => pyChar s (a.j - 1 - l) :: acc) [] ++ a.s_str,
          List.replicate L ' ' ++ a.g_str,
          a.endPos, a.score, a.i, a.j - L, Step.ins L :: a.steps⟩],
        rs.found, rs.count⟩ := by
  simp [runRound, processOne, hdir, applyDir]

/-! Slice and gap-stripping algebra, used for the substring-fidelity
invariant of the single-path traceback. -/

theorem stripGaps_append (xs ys : List Char) :
    stripGaps (xs ++ ys) = stripGaps xs ++ stripGaps ys := by
  unfold stripGaps
  exact List.filter_append xs ys

theorem stripGaps_replicate_dash (L : Nat) :
    stripGaps (List.replicate L '-') = [] := by
  induction L with
  | zero => rfl
  | succ L ih =>
    rw [List.replicate_succ]
    unfold stripGaps at ih ⊢
    simp [ih]

theorem slice_self (l : List Char) (a : Nat) : slice l a a = [] := by
  unfold slice
  simp

theorem slice_cons (l : List Char) (a b : Nat) (hab : a < b) (hal : a < l.length) :
    slice l a b = l.getD a ' ' :: slice l (a+1) b := by
  unfold slice
  rw [List.drop_eq_getElem_cons hal]
  have hba : b - a = (b - (a+1)) + 1 := by omega
  rw [hba, List.take_succ_cons, List.getD_eq_getElem l ' ' hal]

theorem slice_append_slice (l : List Char) (a b c : Nat) (hab : a ≤ b) (hbc : b ≤ c) :
    slice l a b ++ slice l b c = slice l a c := by
  unfold slice
  have hca : c - a = (b - a) + (c - b) := by omega
  rw [hca, List.take_add]
  congr 2
  rw [List.drop_drop]
  congr 1
  omega

/-- The query segment built backward by the `Delete(L)` branch (prepending
`query[i-1-l]` for `l = 0, …, L-1`) is exactly the slice
`query[i-L : i]`. -/
theorem foldl_prepend_slice (q : List Char) (i : Nat) :
    ∀ L : Nat, L ≤ i → i ≤ q.length →
    (List.range L).foldl (fun (acc : List Char) (l : Nat) =>
      pyChar q ((i : Int) - 1 - l) :: acc) [] = slice q (i - L) i := by
  intro L
  induction L with
  | zero =>
    intro _ _
    simp only [Nat.sub_zero, List.range_zero, List.foldl_nil, slice_self]
  | succ L ih =>
    intro hL hi
    rw [List.range_succ, List.foldl_append, List.foldl_cons, List.foldl_nil]
    have hcast : (i : Int) - 1 - (L : Int) = ((i - 1 - L : Nat) : Int) := by omega
    rw [ih (by omega) hi, hcast, pyChar_nat]
    rw [slice_cons q (i - (L+1)) i (by omega) (by omega)]
    have h1 : i - (L+1) + 1 = i - L := by omega
    have h2 : i - 1 - L = i - (L+1) := by omega
    rw [h1, h2]

/-- Completion of a single pending alignment sitting on a `['s']` cell: the
next two rounds finish it and then drain the empty worklist. -/
theorem traceDone (q s : List Char) (sc : Char → Char → Int)
    (D : List (List (List Dir))) (i j : Nat) (a : Alignment) (fuel : Nat)
    (F : List FinalAlignment) (C : Nat) (hfuel : 2 ≤ fuel)
    (hai : a.i = (i : Int)) (haj : a.j = (j : Int))
    (hdir : getd D i j = [Dir.s]) :
    tracebackLoop q s sc D fuel F C [a] =
      F ++ [⟨C, a.score, (i : Int) + 1, (j : Int) + 1, a.endPos.1, a.endPos.2,
        a.q_str, a.s_str, a.g_str, a.steps⟩] := by
  have hpd : pyDirs D a.i a.j = [Dir.s] := by
    rw [hai, haj, pyDirs_nat, hdir]
  rcases fuel with _ | fuel
  · omega
  rcases fuel with _ | fuel
  · omega
  rw [tracebackLoop_succ, if_neg (by simp), round_tag_s q s sc D _ a hpd]
  rw [tracebackLoop_succ, if_pos rfl]
  rw [hai, haj]

/-- The single-path traceback in single-result mode (`find_all = false`):
from a pending alignment at in-range cell `(i, j)` whose running score
satisfies the telescoping invariant, the loop completes exactly one
alignment, appended to the finished list, with ordinal `C`, the inherited
score and end coordinates, and with a ghost step trace whose path score
reproduces that score. -/
theorem traceSingle (q s : List Char) (sc : Char → Char → Int) (go ge : Int) :
    ∀ N : Nat, ∀ (i j : Nat) (a : Alignment) (fuel : Nat) (F : List FinalAlignment) (C : Nat),
    i + j ≤ N → i ≤ q.length → j ≤ s.length → i + j + 2 ≤ fuel →
    a.i = (i : Int) → a.j = (j : Int) →
    getv (fillMatrix q s sc go ge false).numbers_matrix i j +
      pathScore sc go ge a.steps = a.score →
    i ≤ a.endPos.1 → j ≤ a.endPos.2 →
    stripGaps a.q_str = stripGaps (slice q i a.endPos.1) →
    stripGaps a.s_str = stripGaps (slice s j a.endPos.2) →
    ∃ r : FinalAlignment,
      tracebackLoop q s sc (fillMatrix q s sc go ge false).direction_matrix fuel F C [a] =
        F ++ [r] ∧
      r.nr = C ∧ r.score = a.score ∧ pathScore sc go ge r.steps = a.score ∧
      r.q_end = a.endPos.1 ∧ r.s_end = a.endPos.2 ∧
      ∃ i' j' : Nat, r.q_start = (i' : Int) + 1 ∧ r.s_start = (j' : Int) + 1 ∧
        stripGaps r.q_str = stripGaps (slice q i' a.endPos.1) ∧
        stripGaps r.s_str = stripGaps (slice s j' a.endPos.2) := by
  intro N
  induction N with
  | zero =>
    intro i j a fuel F C hN hi hj hfuel hai haj hscore hie hje hqstr hsstr
    have hi0 : i = 0 := by omega
    have hj0 : j = 0 := by omega
    subst hi0; subst hj0
    have hdir : getd (fillMatrix q s sc go ge false).direction_matrix 0 0 = [Dir.s] :=
      (fill_spec q s sc go ge false).border_d0 0 (by omega)
    have hv0 : getv (fillMatrix q s sc go ge false).numbers_matrix 0 0 = 0 :=
      (fill_spec q s sc go ge false).border_v0 0 (by omega)
    refine ⟨⟨C, a.score, (0 : Int) + 1, (0 : Int) + 1, a.endPos.1, a.endPos.2,
      a.q_str, a.s_str, a.g_str, a.steps⟩,
      traceDone q s sc _ 0 0 a fuel F C (by omega) hai haj hdir, rfl, rfl, ?_, rfl, rfl,
      0, 0, by norm_num, by norm_num, hqstr, hsstr⟩
    simp only
    rw [hv0] at hscore
    linarith
  | succ N ih =>
    intro i j a fuel F C hN hi hj hfuel hai haj hscore hie hje hqstr hsstr
    have hsing : ∃ t, getd (fillMatrix q s sc go ge false).direction_matrix i j = [t] := by
      by_cases h0 : 1 ≤ i ∧ 1 ≤ j
      · rw [fill_interior_d q s sc go ge false i j h0.1 hi h0.2 hj]
        exact dirsAt_singleton q s sc go ge _ i j
      · have : i = 0 ∨ j = 0 := by omega
        rcases this with h0' | h0'
        · subst h0'; exact ⟨Dir.s, (fill_spec q s sc go ge false).border_d0 j hj⟩
        · subst h0'; exact ⟨Dir.s, (fill_spec q s sc go ge false).border_dc i hi⟩
    obtain ⟨t, ht⟩ := hsing
    rcases fuel with _ | fuel
    · omega
    cases t with
    | s =>
      have hmem : Dir.s ∈ getd (fillMatrix q s sc go ge false).direction_matrix i j := by
        rw [ht]; exact List.mem_cons_self _ _
      have hv0 := (tag_s_spec q s sc go ge false i j hi hj hmem).1
      refine ⟨⟨C, a.score, (i : Int) + 1, (j : Int) + 1, a.endPos.1, a.endPos.2,
        a.q_str, a.s_str, a.g_str, a.steps⟩,
        traceDone q s sc _ i j a (fuel+1) F C (by omega) hai haj ht, rfl, rfl, ?_, rfl, rfl,
        i, j, rfl, rfl, hqstr, hsstr⟩
      simp only
      rw [hv0] at hscore
      linarith
    | p =>
      have hmem : Dir.p ∈ getd (fillMatrix q s sc go ge false).direction_matrix i j := by
        rw [ht]; exact List.mem_cons_self _ _
      obtain ⟨hi1, hj1, hpos, hrel⟩ := tag_p_spec q s sc go ge false i j hi hj hmem
      have hpd : pyDirs (fillMatrix q s sc go ge false).direction_matrix a.i a.j = [Dir.p] := by
        rw [hai, haj, pyDirs_nat, ht]
      rw [tracebackLoop_succ, if_neg (by simp),
        round_tag_p q s sc _ ⟨[], F, C⟩ a hpd]
      have hcast1 : a.i - 1 = ((i - 1 : Nat) : Int) := by rw [hai]; omega
      have hcast2 : a.j - 1 = ((j - 1 : Nat) : Int) := by rw [haj]; omega
      have hqc : pyChar q (a.i - 1) = q.getD (i-1) ' ' := by rw [hcast1, pyChar_nat]
      have hsc : pyChar s (a.j - 1) = s.getD (j-1) ' ' := by rw [hcast2, pyChar_nat]
      obtain ⟨r, hr1, hr2, hr3, hr4, hr5, hr6, i', j', hq1, hq2, hq3, hq4⟩ := ih (i-1) (j-1)
        ⟨pyChar q (a.i - 1) :: a.q_str, pyChar s (a.j - 1) :: a.s_str,
          (if pyChar q (a.i - 1) = pyChar s (a.j - 1) then pyChar q (a.i - 1)
            else if 0 < sc (pyChar q (a.i - 1)) (pyChar s (a.j - 1)) then '+' else ' ') ::
            a.g_str,
          a.endPos, a.score, a.i - 1, a.j - 1,
          Step.diag (pyChar q (a.i - 1)) (pyChar s (a.j - 1)) :: a.steps⟩
        fuel F C (by omega) (by omega) (by omega) (by omega) hcast1 hcast2
        (by
          simp only [pathScore, hqc, hsc]
          rw [hrel] at hscore
          linarith)
        (show i - 1 ≤ a.endPos.1 by omega) (show j - 1 ≤ a.endPos.2 by omega)
        (by
          show stripGaps (pyChar q (a.i - 1) :: a.q_str) =
            stripGaps (slice q (i-1) a.endPos.1)
          rw [hqc,
            show (q.getD (i-1) ' ' :: a.q_str) = [q.getD (i-1) ' '] ++ a.q_str from rfl,
            stripGaps_append, hqstr,
            slice_cons q (i-1) a.endPos.1 (by omega) (by omega),
            show (q.getD (i-1) ' ' :: slice q (i-1+1) a.endPos.1) =
              [q.getD (i-1) ' '] ++ slice q (i-1+1) a.endPos.1 from rfl,
            stripGaps_append,
            show i - 1 + 1 = i from by omega])
        (by
          show stripGaps (pyChar s (a.j - 1) :: a.s_str) =
            stripGaps (slice s (j-1) a.endPos.2)
          rw [hsc,
            show (s.getD (j-1) ' ' :: a.s_str) = [s.getD (j-1) ' '] ++ a.s_str from rfl,
            stripGaps_append, hsstr,
            slice_cons s (j-1) a.endPos.2 (by omega) (by omega),
            show (s.getD (j-1) ' ' :: slice s (j-1+1) a.endPos.2) =
              [s.getD (j-1) ' '] ++ slice s (j-1+1) a.endPos.2 from rfl,
            stripGaps_append,
            show j - 1 + 1 = j from by omega])
      exact ⟨r, by simpa using hr1, hr2, hr3, hr4, hr5, hr6, i', j', hq1, hq2, hq3, hq4⟩
    | d L =>
      have hmem : Dir.d L ∈ getd (fillMatrix q s sc go ge false).direction_matrix i j := by
        rw [ht]; exact List.mem_cons_self _ _
      obtain ⟨hi1, hj1, hpos, hL1, hL2, hrel⟩ := tag_d_spec q s sc go ge false i j hi hj L hmem
      have hpd : pyDirs (fillMatrix q s sc go ge false).direction_matrix a.i a.j =
          [Dir.d L] := by
        rw [hai, haj, pyDirs_nat, ht]
      rw [tracebackLoop_succ, if_neg (by simp),
        round_tag_d q s sc _ ⟨[], F, C⟩ a L hpd]
      have hcast1 : a.i - L = ((i - L : Nat) : Int) := by rw [hai]; omega
      obtain ⟨r, hr1, hr2, hr3, hr4, hr5, hr6, i', j', hq1, hq2, hq3, hq4⟩ := ih (i-L) j
        ⟨(List.range L).foldl (fun acc (l : Nat) => pyChar q (a.i - 1 - l) :: acc) [] ++ a.q_str,
          List.replicate L '-' ++ a.s_str, List.replicate L ' ' ++ a.g_str,
          a.endPos, a.score, a.i - L, a.j, Step.del L :: a.steps⟩
        fuel F C (by omega) (by omega) hj (by omega) hcast1 haj
        (by
          simp only [pathScore]
          rw [hrel] at hscore
          linarith)
        (show i - L ≤ a.endPos.1 by omega) (show j ≤ a.endPos.2 from hje)
        (by
          show stripGaps
              ((List.range L).foldl (fun acc (l : Nat) => pyChar q (a.i - 1 - l) :: acc) [] ++
                a.q_str) =
            stripGaps (slice q (i-L) a.endPos.1)
          rw [hai, foldl_prepend_slice q i L hL2 hi, stripGaps_append, hqstr,
            ← stripGaps_append, slice_append_slice q (i-L) i a.endPos.1 (by omega) hie])
        (by
          show stripGaps (List.replicate L '-' ++ a.s_str) =
            stripGaps (slice s j a.endPos.2)
          rw [stripGaps_append, stripGaps_replicate_dash, List.nil_append, hsstr])
      exact ⟨r, by simpa using hr1, hr2, hr3, hr4, hr5, hr6, i', j', hq1, hq2, hq3, hq4⟩
    | i L =>
      have hmem : Dir.i L ∈ getd (fillMatrix q s sc go ge false).direction_matrix i j := by
        rw [ht]; exact List.mem_cons_self _ _
      obtain ⟨hi1, hj1, hpos, hL1, hL2, hrel⟩ := tag_i_spec q s sc go ge false i j hi hj L hmem
      have hpd : pyDirs (fillMatrix q s sc go ge false).direction_matrix a.i a.j =
          [Dir.i L] := by
        rw [hai, haj, pyDirs_nat, ht]
      rw [tracebackLoop_succ, if_neg (by simp),
        round_tag_i q s sc _ ⟨[], F, C⟩ a L hpd]
      have hcast2 : a.j - L = ((j - L : Nat) : Int) := by rw [haj]; omega
      obtain ⟨r, hr1, hr2, hr3, hr4, hr5, hr6, i', j', hq1, hq2, hq3, hq4⟩ := ih i (j-L)
        ⟨List.replicate L '-' ++ a.q_str,
          (List.range L).foldl (fun acc (l : Nat) => pyChar s (a.j - 1 - l) :: acc) [] ++ a.s_str,
          List.replicate L ' ' ++ a.g_str,
          a.endPos, a.score, a.i, a.j - L, Step.ins L :: a.steps⟩
        fuel F C (by omega) hi (by omega) (by omega) hai hcast2
        (by
          simp only [pathScore]
          rw [hrel] at hscore
          linarith)
        (show i ≤ a.endPos.1 from hie) (show j - L ≤ a.endPos.2 by omega)
        (by
          show stripGaps (List.replicate L '-' ++ a.q_str) =
            stripGaps (slice q i a.endPos.1)
          rw [stripGaps_append, stripGaps_replicate_dash, List.nil_append, hqstr])
        (by
          show stripGaps
              ((List.range L).foldl (fun acc (l : Nat) => pyChar s (a.j - 1 - l) :: acc) [] ++
                a.s_str) =
            stripGaps (slice s (j-L) a.endPos.2)
          rw [haj, foldl_prepend_slice s j L hL2 hj, stripGaps_append, hsstr,
            ← stripGaps_append, slice_append_slice s (j-L) j a.endPos.2 (by omega) hje])
      exact ⟨r, by simpa using hr1, hr2, hr3, hr4, hr5, hr6, i', j', hq1, hq2, hq3, hq4⟩

theorem compute_alignments_eq (q s : List Char) (sc : Char → Char → Int) (go ge : Int)
    (fa : Bool) :
    compute_alignments q s sc go ge fa =
      tracebackLoop q s sc (fillMatrix q s sc go ge fa).direction_matrix
        (2 * (q.length + s.length) + 4) [] 1
        ((fillMatrix q s sc go ge fa).max_positions.map (fun c =>
          ⟨[], [], [], c, (fillMatrix q s sc go ge fa).max_value,
            (c.1 : Int), (c.2 : Int), []⟩)) := rfl

/-- A cell strictly before the split point of a row-major split of
`cellList` lies in the first part. -/
theorem mem_first_of_before (n m : Nat) (d₁ d₂ : List (Nat × Nat)) (p c : Nat × Nat)
    (hsplit : d₁ ++ p :: d₂ = cellList n m) (hc : c ∈ cellList n m) (hlt : rmLT c p) :
    c ∈ d₁ := by
  rw [← hsplit] at hc
  have hpw : List.Pairwise rmLT (d₁ ++ p :: d₂) := by
    rw [hsplit]; exact cellList_pairwise n m
  rcases List.mem_append.mp hc with h | h
  · exact h
  · rcases List.mem_cons.mp h with h' | h'
    · subst h'; exact absurd hlt (rmLT_irrefl c)
    · have := (List.pairwise_cons.mp (List.pairwise_append.mp hpw).2.1).1 c h'
      exact absurd hlt (rmLT_asymm p c this)

theorem processOne_tag_s (q s : List Char) (sc : Char → Char → Int)
    (D : List (List (List Dir))) (rs : RoundState) (a : Alignment)
    (hdir : pyDirs D a.i a.j = [Dir.s]) :
    processOne q s sc D rs a =
      ⟨rs.newAligns,
        rs.found ++ [⟨rs.count, a.score, a.i + 1, a.j + 1, a.endPos.1, a.endPos.2,
          a.q_str, a.s_str, a.g_str, a.steps⟩],
        rs.count + 1⟩ := by
  simp [processOne, hdir, applyDir]

/-- A whole round over pending alignments that all sit on `['s']` cells:
every one of them finishes, in order; nothing is spawned. -/
theorem round_all_s (q s : List Char) (sc : Char → Char → Int)
    (D : List (List (List Dir))) :
    ∀ (aligns : List Alignment) (rs : RoundState),
    (∀ a ∈ aligns, pyDirs D a.i a.j = [Dir.s]) →
    (runRound q s sc D rs aligns).newAligns = rs.newAligns ∧
    (runRound q s sc D rs aligns).count = rs.count + aligns.length ∧
    ∃ fins : List FinalAlignment,
      (runRound q s sc D rs aligns).found = rs.found ++ fins ∧
      fins.length = aligns.length ∧
      ∀ r ∈ fins, ∃ a ∈ aligns, r.q_str = a.q_str ∧ r.s_str = a.s_str ∧
        r.g_str = a.g_str ∧ r.score = a.score := by
  intro aligns
  induction aligns with
  | nil =>
    intro rs _
    exact ⟨rfl, rfl, [], by simp [runRound], rfl, by simp⟩
  | cons a rest ih =>
    intro rs hall
    have hstep : runRound q s sc D rs (a :: rest) =
        runRound q s sc D (processOne q s sc D rs a) rest := rfl
    rw [hstep, processOne_tag_s q s sc D rs a (hall a (List.mem_cons_self _ _))]
    obtain ⟨h1, h2, fins, h3, h4, h5⟩ :=
      ih ⟨rs.newAligns,
        rs.found ++ [⟨rs.count, a.score, a.i + 1, a.j + 1, a.endPos.1, a.endPos.2,
          a.q_str, a.s_str, a.g_str, a.steps⟩],
        rs.count + 1⟩ (fun x hx => hall x (List.mem_cons_of_mem _ hx))
    refine ⟨h1, by simp at h2 ⊢; omega, ⟨rs.count, a.score, a.i + 1, a.j + 1, a.endPos.1,
      a.endPos.2, a.q_str, a.s_str, a.g_str, a.steps⟩ :: fins, ?_, by simp [h4], ?_⟩
    · rw [h3]; simp
    · intro r hr
      rcases List.mem_cons.mp hr with h' | h'
      · exact ⟨a, List.mem_cons_self _ _, by subst h'; exact ⟨rfl, rfl, rfl, rfl⟩⟩
      · obtain ⟨x, hx, hprops⟩ := h5 r h'
        exact ⟨x, List.mem_cons_of_mem _ hx, hprops⟩

theorem ordInv_append (found : List FinalAlignment) (count : Nat)
    (hinv : OrdInv found count) (r : FinalAlignment) (hr : r.nr = count) :
    OrdInv (found ++ [r]) (count + 1) := by
  obtain ⟨h1, h2⟩ := hinv
  refine ⟨by simp [h1], ?_⟩
  intro t x hx
  by_cases ht : t < found.length
  · rw [List.getElem?_append_left ht] at hx
    exact h2 t x hx
  · have ht2 : t = found.length := by
      by_contra hne
      have hbig : (found ++ [r]).length ≤ t := by simp; omega
      rw [List.getElem?_eq_none hbig] at hx
      exact Option.noConfusion hx
    subst ht2
    rw [List.getElem?_append_right (le_refl _)] at hx
    simp only [Nat.sub_self, List.getElem?_cons_zero] at hx
    obtain rfl : r = x := Option.some.inj hx
    omega

theorem applyDir_ord (q s : List Char) (sc : Char → Char → Int) (a : Alignment)
    (ts : TagState) (dir : Dir) (hinv : OrdInv ts.rs.found ts.rs.count) :
    OrdInv (applyDir q s sc a ts dir).rs.found (applyDir q s sc a ts dir).rs.count := by
  cases dir with
  | p =>
    simp only [applyDir]
    split <;> exact hinv
  | d L =>
    simp only [applyDir]
    split <;> exact hinv
  | i L =>
    simp only [applyDir]
    split <;> exact hinv
  | s =>
    exact ordInv_append _ _ hinv _ rfl

theorem foldl_ord (q s : List Char) (sc : Char → Char → Int) (a : Alignment) :
    ∀ (dirs : List Dir) (ts : TagState), OrdInv ts.rs.found ts.rs.count →
    OrdInv (dirs.foldl (applyDir q s sc a) ts).rs.found
      (dirs.foldl (applyDir q s sc a) ts).rs.count := by
  intro dirs
  induction dirs with
  | nil => intro ts h; exact h
  | cons d rest ih =>
    intro ts h
    exact ih (applyDir q s sc a ts d) (applyDir_ord q s sc a ts d h)

theorem runRound_ord (q s : List Char) (sc : Char → Char → Int)
    (D : List (List (List Dir))) :
    ∀ (aligns : List Alignment) (rs : RoundState), OrdInv rs.found rs.count →
    OrdInv (runRound q s sc D rs aligns).found (runRound q s sc D rs aligns).count := by
  intro aligns
  induction aligns with
  | nil => intro rs h; exact h
  | cons a rest ih =>
    intro rs h
    exact ih (processOne q s sc D rs a) (foldl_ord q s sc a _ ⟨a.i, a.j, false, rs⟩ h)

theorem tracebackLoop_ord (q s : List Char) (sc : Char → Char → Int)
    (D : List (List (List Dir))) :
    ∀ (fuel : Nat) (F : List FinalAlignment) (C : Nat) (aligns : List Alignment),
    OrdInv F C →
    ∀ (t : Nat) (x : FinalAlignment),
      (tracebackLoop q s sc D fuel F C aligns)[t]? = some x → x.nr = t + 1 := by
  intro fuel
  induction fuel with
  | zero => intro F C aligns h t x hx; exact h.2 t x hx
  | succ fuel ih =>
    intro F C aligns h t x hx
    rw [tracebackLoop_succ] at hx
    by_cases hnil : aligns = []
    · rw [if_pos hnil] at hx
      exact h.2 t x hx
    · rw [if_neg hnil] at hx
      exact ih _ _ _ (runRound_ord q s sc D aligns ⟨[], F, C⟩ h) t x hx

/-- Traceback over a non-empty worklist all of whose pending alignments sit
on `['s']` cells: one round finishes them all, one more round drains the
empty worklist. -/
theorem trace_all_s (q s : List Char) (sc : Char → Char → Int)
    (D : List (List (List Dir))) (fuel : Nat) (F : List FinalAlignment) (C : Nat)
    (aligns : List Alignment) (hfuel : 2 ≤ fuel) (hne : aligns ≠ [])
    (hall : ∀ a ∈ aligns, pyDirs D a.i a.j = [Dir.s]) :
    ∃ fins : List FinalAlignment,
      tracebackLoop q s sc D fuel F C aligns = F ++ fins ∧
      fins.length = aligns.length ∧
      ∀ r ∈ fins, ∃ a ∈ aligns, r.q_str = a.q_str ∧ r.s_str = a.s_str ∧
        r.g_str = a.g_str ∧ r.score = a.score := by
  rcases fuel with _ | fuel
  · omega
  rcases fuel with _ | fuel
  · omega
  obtain ⟨h1, h2, fins, h3, h4, h5⟩ := round_all_s q s sc D aligns ⟨[], F, C⟩ hall
  rw [tracebackLoop_succ, if_neg hne, tracebackLoop_succ, if_pos (by simpa using h1)]
  refine ⟨fins, by simpa using h3, h4, h5⟩

/-! The claims. -/

/-- C1 (counterexample): with `find_all = true`, sequences `"A"` and `"A"`
and the all-zero scoring model, the computed maximum score is `0` but the
computation returns two FinalAlignments, not exactly one — the fill appends
every zero-valued interior cell to `max_positions` when `find_all` is true. -/
theorem C1_counterexample :
    (fillMatrix ['A'] sA scZero 2 1 true).max_value = 0 ∧
    (compute_alignments ['A'] sA scZero 2 1 true).length = 2 ∧ (2 : Nat) ≠ 1 := by
  decide

/-- C1 (amended): if the computed maximum score is `0`, the computation
returns exactly `1 + |query|·|subject|` FinalAlignments when `find_all` is
true (one per stored max position: `(0,0)` plus every interior cell) and
exactly one when `find_all` is false — in particular exactly one whenever
either sequence is empty — and every returned alignment has empty aligned
query, subject and guide strings and score `0`; never an empty list and
never an error. -/
theorem C1_degenerate_zero_max (q s : List Char) (sc : Char → Char → Int) (go ge : Int)
    (fa : Bool) (h0 : (fillMatrix q s sc go ge fa).max_value = 0) :
    (compute_alignments q s sc go ge fa).length =
      1 + (if fa then q.length * s.length else 0) ∧
    ∀ r ∈ compute_alignments q s sc go ge fa,
      r.q_str = [] ∧ r.s_str = [] ∧ r.g_str = [] ∧ r.score = 0 := by
  have hmp := (fill_spec q s sc go ge fa).max_zero h0
  have hdirs : ∀ c ∈ (fillMatrix q s sc go ge fa).max_positions,
      getd (fillMatrix q s sc go ge fa).direction_matrix c.1 c.2 = [Dir.s] := by
    rw [hmp]
    intro c hc
    rcases List.mem_cons.mp hc with h | h
    · subst h
      exact (fill_spec q s sc go ge fa).border_d0 0 (by omega)
    · revert h
      cases fa with
      | false => intro h; simp at h
      | true =>
        intro h
        simp only [if_pos rfl] at h
        obtain ⟨h1, h2, h3, h4⟩ := (mem_cellList _ _ c).mp h
        have hv := (fill_spec q s sc go ge true).done_v c h
        have hle := (fill_spec q s sc go ge true).done_le c h
        have hnn := cellValueAt_nonneg q s sc go ge
          (fillMatrix q s sc go ge true).numbers_matrix c.1 c.2
        have hcv0 : cellValueAt q s sc go ge
            (fillMatrix q s sc go ge true).numbers_matrix c.1 c.2 = 0 := by omega
        rw [fill_interior_d q s sc go ge true c.1 c.2 h1 h2 h3 h4]
        exact dirsAt_of_zero q s sc go ge true _ c.1 c.2 hcv0
  rw [compute_alignments_eq]
  have hne : (fillMatrix q s sc go ge fa).max_positions.map (fun c =>
      (⟨[], [], [], c, (fillMatrix q s sc go ge fa).max_value,
        (c.1 : Int), (c.2 : Int), []⟩ : Alignment)) ≠ [] := by
    rw [hmp]; simp
  obtain ⟨fins, hloop, hlen, hprops⟩ := trace_all_s q s sc
    (fillMatrix q s sc go ge fa).direction_matrix (2 * (q.length + s.length) + 4) [] 1 _
    (by omega) hne
    (by
      intro a ha
      simp only [List.mem_map] at ha
      obtain ⟨c, hc, rfl⟩ := ha
      show pyDirs _ (c.1 : Int) (c.2 : Int) = [Dir.s]
      rw [pyDirs_nat]
      exact hdirs c hc)
  constructor
  · rw [hloop, List.nil_append, hlen, List.length_map, hmp]
    cases fa <;> simp [length_cellList, Nat.add_comm]
  · intro r hr
    rw [hloop, List.nil_append] at hr
    obtain ⟨a, ha, p1, p2, p3, p4⟩ := hprops r hr
    simp only [List.mem_map] at ha
    obtain ⟨c, hc, rfl⟩ := ha
    refine ⟨p1, p2, p3, ?_⟩
    rw [p4]
    exact h0

/-- C1 (witness): the amended count at the counterexample input. -/
theorem C1_degenerate_zero_max_witness :
    (compute_alignments ['A'] sA scZero 2 1 true).length =
      1 + (if true then (['A'] : List Char).length * sA.length else 0) :=
  (C1_degenerate_zero_max ['A'] sA scZero 2 1 true (by decide)).1

/-- C2 (bug evaluation): on query `"AB"`, subject `"B"` with `A–B = B–B = 2`
and zero gap penalties, `find_all = true`, cell `(2,1)` carries the two tags
`[Diagonal, Delete 1]`.  Per the claim, the `Delete 1` tag should consume
`query[1] = 'B'` and move to `(1,1)`; the code instead derives it from the
position already moved by the Diagonal tag, consuming `query[0] = 'A'` and
landing at `(0,0)`: the third returned alignment has aligned query `"A"`,
aligned subject `"-"`, start `(1,1)` and ghost trace `[del 1]`. -/
theorem C2_multi_tag_carryover :
    (compute_alignments qAB sB scAB 0 0 true).length = 3 ∧
    ((compute_alignments qAB sB scAB 0 0 true)[2]?.map
      (fun r => (r.q_start, r.s_start, r.steps))) = some (1, 1, [Step.del 1]) ∧
    ((compute_alignments qAB sB scAB 0 0 true)[2]?.map
      (fun r => (r.q_str, r.s_str, r.g_str))) = some (['A'], ['-'], [' ']) := by
  decide

/-- C4 (bug evaluation): for the third alignment returned on the same input,
removing the gap markers from the aligned query yields `"A"` while the
claimed substring `query[q_start-1 : q_end]` is `"AB"`; symmetrically the
gapless aligned subject is empty while the claimed subject substring is
`"B"`. -/
theorem C4_substring_fidelity_violation :
    ((compute_alignments qAB sB scAB 0 0 true)[2]?.map
      (fun r => (stripGaps r.q_str, slice qAB (r.q_start - 1).toNat r.q_end,
        stripGaps r.s_str, slice sB (r.s_start - 1).toNat r.s_end))) =
      some (['A'], ['A', 'B'], [], ['B']) ∧
    (['A'] : List Char) ≠ ['A', 'B'] := by
  decide

/-- C5 (bug evaluation): the third alignment returned on the same input has
reported score `2`, but its path consists of a single `Delete 1` step, whose
score decomposition is `-g(0, 0, 1) = 0 ≠ 2`. -/
theorem C5_score_decomposition_violation :
    ((compute_alignments qAB sB scAB 0 0 true)[2]?.map
      (fun r => (r.steps, pathScore scAB 0 0 r.steps, r.score))) =
      some ([Step.del 1], -g 0 0 1, 2) ∧
    -g 0 0 1 ≠ (2 : Int) := by
  decide

/-- C6 (counterexample): in the scan `gapScan 1 1 vals6 2` the gap lengths
`2` (at `k = 0`) and `1` (at `k = 1`) tie at the best positive score `5`;
the recorded length is `2` — the largest gap length, not the smallest. -/
theorem C6_counterexample :
    gapScan 1 1 vals6 2 = (5, 2) ∧
    vals6 0 - g 1 1 2 = 5 ∧ vals6 1 - g 1 1 1 = 5 ∧ (2 : Nat) ≠ 1 := by
  decide

/-- C6 (amended): in the best-deletion and best-insertion scans, a scan with
no positive candidate yields `(0, 0)`; every candidate is bounded by the
result; and when the best score is positive the recorded gap length is
`bound - k` for the **earliest** maximizing `k` — i.e. the **largest** gap
length among tied candidates — since the left-to-right scan over
`k = 0, 1, …` replaces the running best only on a strict improvement. -/
theorem C6_gap_scan_ties (go ge : Int) (vals : Nat → Int) (bound : Nat) :
    ((gapScan go ge vals bound).1 = 0 → gapScan go ge vals bound = (0, 0)) ∧
    (∀ k, k < bound → vals k - g go ge (bound - k) ≤ (gapScan go ge vals bound).1) ∧
    (0 < (gapScan go ge vals bound).1 →
      ∃ k, k < bound ∧
        gapScan go ge vals bound = (vals k - g go ge (bound - k), bound - k) ∧
        ∀ k', k' < k → vals k' - g go ge (bound - k') < (gapScan go ge vals bound).1) := by
  obtain ⟨hA, hB, hC, hD⟩ := gapScan_spec go ge vals bound
  refine ⟨hC, hB, ?_⟩
  intro hpos
  obtain ⟨k, hk, h1, h2, h3⟩ := hD hpos
  exact ⟨k, hk, Prod.ext h1 h2, h3⟩

/-- C6 (witness): the amended tie-break at the concrete tie. -/
theorem C6_gap_scan_ties_witness :
    ∃ k, k < 2 ∧ gapScan 1 1 vals6 2 = (vals6 k - g 1 1 (2 - k), 2 - k) ∧
      ∀ k', k' < k → vals6 k' - g 1 1 (2 - k') < (gapScan 1 1 vals6 2).1 :=
  (C6_gap_scan_ties 1 1 vals6 2).2.2 (by decide)

/-- C3: with `find_all = false` and a strictly positive maximum score, the
computation returns exactly one FinalAlignment; `max_positions` holds exactly
one cell — the first cell in row-major scan order to attain the maximum (all
interior cells strictly before it score strictly less) — and every cell of
the direction matrix retains at most one tag. -/
theorem C3_single_result_mode (q s : List Char) (sc : Char → Char → Int) (go ge : Int)
    (hmv : 0 < (fillMatrix q s sc go ge false).max_value) :
    (compute_alignments q s sc go ge false).length = 1 ∧
    (∃ p : Nat × Nat, (fillMatrix q s sc go ge false).max_positions = [p] ∧
      1 ≤ p.1 ∧ p.1 ≤ q.length ∧ 1 ≤ p.2 ∧ p.2 ≤ s.length ∧
      getv (fillMatrix q s sc go ge false).numbers_matrix p.1 p.2 =
        (fillMatrix q s sc go ge false).max_value ∧
      ∀ c : Nat × Nat, c ∈ cellList q.length s.length → rmLT c p →
        getv (fillMatrix q s sc go ge false).numbers_matrix c.1 c.2 <
          (fillMatrix q s sc go ge false).max_value) ∧
    (∀ a b : Nat, a ≤ q.length → b ≤ s.length →
      (getd (fillMatrix q s sc go ge false).direction_matrix a b).length ≤ 1) := by
  obtain ⟨p, d₁, d₂, hsplit, hp, hd₁, hmp⟩ := (fill_spec q s sc go ge false).max_pos hmv
  have hmp1 : (fillMatrix q s sc go ge false).max_positions = [p] := by
    rw [hmp]; simp
  have hpmem : p ∈ cellList q.length s.length := by
    rw [hsplit]
    exact List.mem_append_right _ (List.mem_cons_self _ _)
  obtain ⟨hp1, hp2, hp3, hp4⟩ := (mem_cellList _ _ p).mp hpmem
  refine ⟨?_, ⟨p, hmp1, hp1, hp2, hp3, hp4, hp, ?_⟩, ?_⟩
  · -- exactly one alignment
    rw [compute_alignments_eq, hmp1]
    simp only [List.map_cons, List.map_nil]
    obtain ⟨r, hr1, -⟩ := traceSingle q s sc go ge (p.1 + p.2) p.1 p.2
      ⟨[], [], [], p, (fillMatrix q s sc go ge false).max_value,
        (p.1 : Int), (p.2 : Int), []⟩
      (2 * (q.length + s.length) + 4) [] 1 (le_refl _) hp2 hp4 (by omega) rfl rfl
      (by simp only [pathScore]; rw [hp]; ring)
      (le_refl _) (le_refl _) (by rw [slice_self]) (by rw [slice_self])
    rw [hr1]
    simp
  · -- p is the first max cell in row-major order
    intro c hc hlt
    have hcd₁ := mem_first_of_before q.length s.length d₁ d₂ p c hsplit.symm hc hlt
    exact hd₁ c hcd₁
  · -- at most one tag per cell
    intro a b ha hb
    by_cases hab : 1 ≤ a ∧ 1 ≤ b
    · rw [fill_interior_d q s sc go ge false a b hab.1 ha hab.2 hb]
      obtain ⟨t, ht⟩ := dirsAt_singleton q s sc go ge
        (fillMatrix q s sc go ge false).numbers_matrix a b
      rw [ht]
      simp
    · have : a = 0 ∨ b = 0 := by omega
      rcases this with h0 | h0
      · subst h0
        rw [(fill_spec q s sc go ge false).border_d0 b hb]
        simp
      · subst h0
        rw [(fill_spec q s sc go ge false).border_dc a ha]
        simp

/-- C3 (witness): one alignment on the concrete positive-score input. -/
theorem C3_single_result_mode_witness :
    (compute_alignments qAA sA scAA 0 0 false).length = 1 :=
  (C3_single_result_mode qAA sA scAA 0 0 (by decide)).1

/-- C7: in the finished fill, every cell score is non-negative; row 0 and
column 0 still hold `(0, ['s'])` (they are never overwritten); and every
interior cell equals the maximum of 0, the diagonal candidate, the best
deletion candidate and the best insertion candidate, recomputed from the
finished matrix. -/
theorem C7_cell_recurrence (q s : List Char) (sc : Char → Char → Int) (go ge : Int)
    (fa : Bool) :
    (∀ a b : Nat, a ≤ q.length → b ≤ s.length →
      0 ≤ getv (fillMatrix q s sc go ge fa).numbers_matrix a b) ∧
    (∀ b : Nat, b ≤ s.length →
      getv (fillMatrix q s sc go ge fa).numbers_matrix 0 b = 0 ∧
      getd (fillMatrix q s sc go ge fa).direction_matrix 0 b = [Dir.s]) ∧
    (∀ a : Nat, a ≤ q.length →
      getv (fillMatrix q s sc go ge fa).numbers_matrix a 0 = 0 ∧
      getd (fillMatrix q s sc go ge fa).direction_matrix a 0 = [Dir.s]) ∧
    (∀ a b : Nat, 1 ≤ a → a ≤ q.length → 1 ≤ b → b ≤ s.length →
      getv (fillMatrix q s sc go ge fa).numbers_matrix a b =
        max (max (max 0 (pairAt q s sc (fillMatrix q s sc go ge fa).numbers_matrix a b))
          (delAt go ge (fillMatrix q s sc go ge fa).numbers_matrix a b).1)
          (insAt go ge (fillMatrix q s sc go ge fa).numbers_matrix a b).1) := by
  refine ⟨?_, ?_, ?_, ?_⟩
  · intro a b ha hb
    by_cases hab : 1 ≤ a ∧ 1 ≤ b
    · rw [fill_interior_v q s sc go ge fa a b hab.1 ha hab.2 hb]
      exact cellValueAt_nonneg q s sc go ge _ a b
    · have : a = 0 ∨ b = 0 := by omega
      rcases this with h0 | h0
      · subst h0; rw [(fill_spec q s sc go ge fa).border_v0 b hb]
      · subst h0; rw [(fill_spec q s sc go ge fa).border_vc a ha]
  · exact fun b hb => ⟨(fill_spec q s sc go ge fa).border_v0 b hb,
      (fill_spec q s sc go ge fa).border_d0 b hb⟩
  · exact fun a ha => ⟨(fill_spec q s sc go ge fa).border_vc a ha,
      (fill_spec q s sc go ge fa).border_dc a ha⟩
  · intro a b h1 h2 h3 h4
    exact fill_interior_v q s sc go ge fa a b h1 h2 h3 h4

/-- C7 (witness): the recurrence at cell `(2, 1)` of the concrete fill. -/
theorem C7_cell_recurrence_witness :
    getv (fillMatrix qAA sA scAA 0 0 true).numbers_matrix 2 1 =
      max (max (max 0 (pairAt qAA sA scAA (fillMatrix qAA sA scAA 0 0 true).numbers_matrix 2 1))
        (delAt 0 0 (fillMatrix qAA sA scAA 0 0 true).numbers_matrix 2 1).1)
        (insAt 0 0 (fillMatrix qAA sA scAA 0 0 true).numbers_matrix 2 1).1 :=
  (C7_cell_recurrence qAA sA scAA 0 0 true).2.2.2 2 1 (by decide) (by decide) (by decide)
    (by decide)

/-- C8: the computation is a pure function of its inputs — two runs on
identical inputs are identical — and ordinals are assigned consecutively:
the `t`-th FinalAlignment of the output (0-based) carries ordinal `t + 1`,
in exactly the order completions are appended during the round-by-round
traceback. -/
theorem C8_deterministic_ordinals (q s : List Char) (sc : Char → Char → Int)
    (go ge : Int) (fa : Bool) :
    compute_alignments q s sc go ge fa = compute_alignments q s sc go ge fa ∧
    ∀ (t : Nat) (x : FinalAlignment),
      (compute_alignments q s sc go ge fa)[t]? = some x → x.nr = t + 1 := by
  refine ⟨rfl, ?_⟩
  intro t x hx
  rw [compute_alignments_eq] at hx
  exact tracebackLoop_ord q s sc (fillMatrix q s sc go ge fa).direction_matrix
    (2 * (q.length + s.length) + 4) [] 1 _ ⟨rfl, by simp⟩ t x hx

/-- C8 (witness): the third alignment of the concrete tied run has ordinal 3. -/
theorem C8_deterministic_ordinals_witness :
    ((compute_alignments qAB sB scAB 0 0 true)[2]?.map FinalAlignment.nr) = some 3 := by
  cases hx : (compute_alignments qAB sB scAB 0 0 true)[2]? with
  | none => exact absurd hx (by decide)
  | some x =>
    have hnr := (C8_deterministic_ordinals qAB sB scAB 0 0 true).2 2 x hx
    simp [hnr]

/-- C9: for every interior cell of the finished fill, the stored direction
list is exactly `['s']` iff the cell score is `0`; the list is never empty
and has at most three tags; and a zero score excludes the Diagonal tag even
when the diagonal candidate also equals `0` (the zero check takes
precedence). -/
theorem C9_start_iff_zero (q s : List Char) (sc : Char → Char → Int) (go ge : Int)
    (fa : Bool) (a b : Nat) (h1 : 1 ≤ a) (h2 : a ≤ q.length) (h3 : 1 ≤ b)
    (h4 : b ≤ s.length) :
    (getd (fillMatrix q s sc go ge fa).direction_matrix a b = [Dir.s] ↔
      getv (fillMatrix q s sc go ge fa).numbers_matrix a b = 0) ∧
    getd (fillMatrix q s sc go ge fa).direction_matrix a b ≠ [] ∧
    (getd (fillMatrix q s sc go ge fa).direction_matrix a b).length ≤ 3 ∧
    (getv (fillMatrix q s sc go ge fa).numbers_matrix a b = 0 →
      Dir.p ∉ getd (fillMatrix q s sc go ge fa).direction_matrix a b) := by
  rw [fill_interior_d q s sc go ge fa a b h1 h2 h3 h4,
    fill_interior_v q s sc go ge fa a b h1 h2 h3 h4]
  refine ⟨⟨?_, ?_⟩, dirsAt_ne_nil q s sc go ge fa _ a b,
    dirsAt_length_le q s sc go ge fa _ a b, ?_⟩
  · intro h
    exact s_mem_dirsAt q s sc go ge fa _ a b (by rw [h]; exact List.mem_cons_self _ _)
  · intro h
    exact dirsAt_of_zero q s sc go ge fa _ a b h
  · intro h hmem
    rw [dirsAt_of_zero q s sc go ge fa _ a b h] at hmem
    simp at hmem

/-- C9 (witness): the equivalence at interior cell `(1, 1)` of the concrete
fill. -/
theorem C9_start_iff_zero_witness :
    getd (fillMatrix qAA sA scAA 0 0 true).direction_matrix 1 1 = [Dir.s] ↔
      getv (fillMatrix qAA sA scAA 0 0 true).numbers_matrix 1 1 = 0 :=
  (C9_start_iff_zero qAA sA scAA 0 0 true 1 1 (by decide) (by decide) (by decide)
    (by decide)).1

/-- Positive counterpart of the C4/C5 bug evaluations: in single-result mode
(`find_all = false`) the multi-tag carry-over slip cannot fire, and the
single returned alignment does satisfy both substring fidelity (up to
stripping any gap markers the input sequences themselves contain) and the
path score decomposition. -/
theorem single_mode_path_properties (q s : List Char) (sc : Char → Char → Int)
    (go ge : Int) :
    ∀ r ∈ compute_alignments q s sc go ge false,
      pathScore sc go ge r.steps = r.score ∧
      ∃ i' j' : Nat, r.q_start = (i' : Int) + 1 ∧ r.s_start = (j' : Int) + 1 ∧
        stripGaps r.q_str = stripGaps (slice q i' r.q_end) ∧
        stripGaps r.s_str = stripGaps (slice s j' r.s_end) := by
  intro r hr
  have hex : ∃ p : Nat × Nat, (fillMatrix q s sc go ge false).max_positions = [p] ∧
      getv (fillMatrix q s sc go ge false).numbers_matrix p.1 p.2 =
        (fillMatrix q s sc go ge false).max_value ∧
      p.1 ≤ q.length ∧ p.2 ≤ s.length := by
    by_cases hmv : 0 < (fillMatrix q s sc go ge false).max_value
    · obtain ⟨p, d₁, d₂, hsplit, hp, hd₁, hmp⟩ := (fill_spec q s sc go ge false).max_pos hmv
      have hpmem : p ∈ cellList q.length s.length := by
        rw [hsplit]
        exact List.mem_append_right _ (List.mem_cons_self _ _)
      obtain ⟨hp1, hp2, hp3, hp4⟩ := (mem_cellList _ _ p).mp hpmem
      exact ⟨p, by rw [hmp]; simp, hp, hp2, hp4⟩
    · have h0 : (fillMatrix q s sc go ge false).max_value = 0 :=
        le_antisymm (not_lt.mp hmv) (fill_spec q s sc go ge false).mv_nonneg
      have hmp := (fill_spec q s sc go ge false).max_zero h0
      refine ⟨(0, 0), by rw [hmp]; simp, ?_, by omega, by omega⟩
      rw [(fill_spec q s sc go ge false).border_v0 0 (by omega), h0]
  obtain ⟨p, hmp1, hpv, hp2, hp4⟩ := hex
  rw [compute_alignments_eq, hmp1] at hr
  simp only [List.map_cons, List.map_nil] at hr
  obtain ⟨r₀, hr1, hr2, hr3, hr4, hr5, hr6, i', j', hq1, hq2, hq3, hq4⟩ :=
    traceSingle q s sc go ge (p.1 + p.2) p.1 p.2
      ⟨[], [], [], p, (fillMatrix q s sc go ge false).max_value,
        (p.1 : Int), (p.2 : Int), []⟩
      (2 * (q.length + s.length) + 4) [] 1 (le_refl _) hp2 hp4 (by omega) rfl rfl
      (by simp only [pathScore]; rw [hpv]; ring)
      (le_refl _) (le_refl _) (by rw [slice_self]) (by rw [slice_self])
  rw [hr1] at hr
  simp only [List.nil_append, List.mem_singleton] at hr
  subst hr
  refine ⟨hr4.trans hr3.symm, i', j', hq1, hq2, ?_, ?_⟩
  · rw [hr5]
    exact hq3
  · rw [hr6]
    exact hq4

/-- C10 (bug evaluation): on query `"AB"`, subject `"C"` with scores
`A–C = -5`, `B–C = 1`, gap opening `1` and gap extension `-1`,
`find_all = true`, cell `(2,1)` carries `[Diagonal, Delete 2]`: after the
Diagonal tag moves the shared position to `(1,0)`, the `Delete 2` successor
lands at row `-1`.  The run still returns (Python's negative indexing wraps
to the last matrix row, which reads `['s']`), and the second returned
alignment has `q_start = row + 1 = 0` — the traceback visited a row below 0,
contradicting the claim. -/
theorem C10_negative_row :
    (compute_alignments qAB sC scABC 1 (-1) true).length = 2 ∧
    ((compute_alignments qAB sC scABC 1 (-1) true)[1]?.map
      (fun r => (r.q_start, r.q_str, r.s_str, r.score))) =
      some (0, ['B', 'A'], ['-', '-'], 1) ∧
    ¬ (1 : Int) ≤ 0 := by
  decide

end SW
